import Mathlib

/-!
Verification development for the analytical core of the hotspot profiler
(`src/models/data.cpp`): the top-down builder, the per-library aggregator,
the caller-callee builder and the symbol prettifier, together with the
cost-matrix and tree primitives they operate on.

The builders of `data.cpp` are embedded as pure Lean functions.  The C++
walks the bottom-up tree with parent back-references; here the parent
chain of a node is carried explicitly as the list of ancestor symbols
(nearest first), which reproduces the pointer walk: the chain of a
first-level child of the artificial bottom-up root is empty, matching the
null back-reference that `initializeParents` assigns to first-level
children.
-/

namespace Data

/-- Modelled from the spec: `Symbol` identifies a function/location (name,
binary/module name); a value type compared by its fields and used as a map
key (`data.h` is not part of the sources).  The relative address and size
play no role in the builders and are omitted. -/
structure Symbol where
  name : String
  binary : String
deriving DecidableEq, Repr

/-- `ItemCost`: an ordered sequence of numeric (qint64) cost values, one
per configured cost category. -/
abbrev ItemCost := List Int

/-- The zero cost vector of a given category count. -/
def zeroCost (n : Nat) : ItemCost := List.replicate n 0

/-- Elementwise addition of cost vectors (`ItemCost::operator+=`). -/
def addCost (a b : ItemCost) : ItemCost := List.zipWith (· + ·) a b

/-- Elementwise subtraction of cost vectors (`rowCost - childCost`). -/
def subCost (a b : ItemCost) : ItemCost := List.zipWith (· - ·) a b

/-- The `sum()` reduction of a cost vector. -/
def sumCost (a : ItemCost) : Int := a.foldr (· + ·) 0

/-- Modelled from the spec: the cost matrix `Costs` (declared in the
missing `data.h`) maps an integer item id to its `ItemCost` and knows the
category count `numTypes`; a missing entry is a legitimate zero-cost case,
so the table is total with zero vectors where nothing was stored. -/
structure Costs where
  numTypes : Nat
  table : Nat → ItemCost

/-- Modelled from the spec: `itemCost(id)` returns the stored cost or a
zero vector if absent (the zero default is baked into `table`). -/
def Costs.itemCost (c : Costs) (i : Nat) : ItemCost := c.table i

/-- Modelled from the spec: `add(id, delta)` accumulates in place. -/
def Costs.add (c : Costs) (i : Nat) (delta : ItemCost) : Costs :=
  ⟨c.numTypes, fun j => if j = i then addCost (c.table j) delta else c.table j⟩

/-- Modelled from the spec: `initializeCostsFrom` clones the category
layout without copying per-item values. -/
def initializeCostsFrom (c : Costs) : Costs :=
  ⟨c.numTypes, fun _ => zeroCost c.numTypes⟩

/-- Well-formedness of a cost matrix: every stored vector has the
configured category count. -/
def Costs.WF (c : Costs) : Prop := ∀ i, (c.table i).length = c.numTypes

/-- Association-list lookup for concrete cost matrices. -/
def lookupCost : List (Nat × ItemCost) → Nat → Option ItemCost
  | [], _ => none
  | (k, v) :: rest, i => if i = k then some v else lookupCost rest i

/-- A convenience constructor for concrete cost matrices: an association
list of (id, cost vector), zero elsewhere. -/
def mkCosts (n : Nat) (entries : List (Nat × ItemCost)) : Costs :=
  ⟨n, fun i => (lookupCost entries i).getD (zeroCost n)⟩

/-- Modelled from the spec: a bottom-up tree node has an integer id
(unique within its tree), a `Symbol` and an ordered sequence of owned
child nodes; the parent back-reference is represented by the explicit
ancestor chains threaded through the builders. -/
inductive BottomUp where
  | node (id : Nat) (symbol : Symbol) (children : List BottomUp)
deriving Repr

def BottomUp.id : BottomUp → Nat
  | .node i _ _ => i

def BottomUp.symbol : BottomUp → Symbol
  | .node _ s _ => s

def BottomUp.children : BottomUp → List BottomUp
  | .node _ _ cs => cs

/-- `BottomUpResults{root, costs}`: the immutable input snapshot. -/
structure BottomUpResults where
  root : BottomUp
  costs : Costs

/-- Modelled from the spec: a top-down tree node (id, symbol, owned
children); ids are assigned monotonically by `entryForSymbol`. -/
inductive TopDown where
  | node (id : Nat) (symbol : Symbol) (children : List TopDown)
deriving Repr

def TopDown.id : TopDown → Nat
  | .node i _ _ => i

def TopDown.symbol : TopDown → Symbol
  | .node _ s _ => s

def TopDown.children : TopDown → List TopDown
  | .node _ _ cs => cs

/-- All ids of a forest of top-down nodes, at every depth. -/
def forestIds : List TopDown → List Nat
  | [] => []
  | .node i _ cs :: rest => i :: (forestIds cs ++ forestIds rest)

/-- The elementwise sum of the cost-matrix entries of a list of ids. -/
def idsSum (c : Costs) : List Nat → ItemCost
  | [] => zeroCost c.numTypes
  | i :: rest => addCost (c.table i) (idsSum c rest)

/-- The sum of `bottomUpCosts.itemCost(row.id)` over a list of rows: the
`totalCost` accumulated by the builders. -/
def sumRowCosts (c : Costs) : List BottomUp → ItemCost
  | [] => zeroCost c.numTypes
  | row :: rest => addCost (c.itemCost row.id) (sumRowCosts c rest)

/-- `isLastNode` of the top-down walk, phrased on the remaining ancestor
chain: `!node->parent` is `rest = []`, and `!node->parent->parent` is
`rest.length = 1`. -/
def isLastNode (skipFirstLevel : Bool) (rest : List Symbol) : Bool :=
  rest.isEmpty || (skipFirstLevel && rest.length == 1)

/-- The parent-chain walk of `buildTopDownResult` (the `while (node)`
loop): follow the chain of symbols, find-or-create (`entryForSymbol`) the
node for each symbol under the current cursor, credit `diff` to its
inclusive cost, and on the last node credit `diff` to its self cost and
stop.  The cursor's children list is transformed; a symbol not present is
appended at the end with the next fresh id. -/
def walkChain (skip : Bool) (diff : ItemCost) :
    List Symbol → List TopDown → Costs → Costs → Nat →
    List TopDown × Costs × Costs × Nat
  | [], f, incl, self, mx => (f, incl, self, mx)
  | s :: rest, [], incl, self, mx =>
    -- entryForSymbol misses: create a fresh node with id mx
    let incl' := incl.add mx diff
    if isLastNode skip rest then
      ([.node mx s []], incl', self.add mx diff, mx + 1)
    else
      let r := walkChain skip diff rest [] incl' self (mx + 1)
      ([.node mx s r.1], r.2.1, r.2.2.1, r.2.2.2)
  | s :: rest, .node i sy cs :: ts, incl, self, mx =>
    if sy = s then
      let incl' := incl.add i diff
      if isLastNode skip rest then
        (.node i sy cs :: ts, incl', self.add i diff, mx)
      else
        let r := walkChain skip diff rest cs incl' self mx
        (.node i sy r.1 :: ts, r.2.1, r.2.2.1, r.2.2.2)
    else
      let r := walkChain skip diff (s :: rest) ts incl self mx
      (.node i sy cs :: r.1, r.2.1, r.2.2.1, r.2.2.2)
termination_by cs f _ _ _ => (cs.length, f.length)

/-- The builder state threaded through `buildTopDownResult`: the children
of the walk cursor, the two cost matrices and the id counter. -/
structure TDState where
  forest : List TopDown
  incl : Costs
  self : Costs
  mx : Nat

/-- `buildTopDownResult`: recursively visit each bottom-up child, first
recursing into its own children to obtain `childCost`; if the difference
`diff = rowCost - childCost` has nonzero sum, walk the parent chain
(`row.symbol :: anc`) from the cursor; accumulate `rowCost` into the
returned total. -/
def buildTopDownResult (c : Costs) (skip : Bool) :
    List BottomUp → List Symbol → TDState → ItemCost × TDState
  | [], _, st => (zeroCost c.numTypes, st)
  | .node i sy cs :: rest, anc, st =>
    let rc := buildTopDownResult c skip cs (sy :: anc) st
    let childCost := rc.1
    let rowCost := c.itemCost i
    let diff := subCost rowCost childCost
    let st2 :=
      if sumCost diff ≠ 0 then
        let w := walkChain skip diff (sy :: anc) rc.2.forest rc.2.incl rc.2.self rc.2.mx
        ⟨w.1, w.2.1, w.2.2.1, w.2.2.2⟩
      else rc.2
    let rr := buildTopDownResult c skip rest anc st2
    (addCost rowCost rr.1, rr.2)

/-- `TopDownResults{root, selfCosts, inclusiveCosts}`. -/
structure TopDownResults where
  root : TopDown
  selfCosts : Costs
  inclusiveCosts : Costs

/-- Modelled from the spec: `entryForSymbol` on a forest — find the first
node with the given symbol or append a fresh one (next sequential id);
returns the updated forest, the found/created node and the id counter. -/
def entryForSymbolF : List TopDown → Symbol → Nat → List TopDown × TopDown × Nat
  | [], s, mx => ([.node mx s []], .node mx s [], mx + 1)
  | .node i sy cs :: ts, s, mx =>
    if sy = s then (.node i sy cs :: ts, .node i sy cs, mx)
    else
      let r := entryForSymbolF ts s mx
      (.node i sy cs :: r.1, r.2)

/-- Replace the children of the first node carrying the given symbol. -/
def setChildrenF : List TopDown → Symbol → List TopDown → List TopDown
  | [], _, _ => []
  | .node i sy cs :: ts, s, sub =>
    if sy = s then .node i sy sub :: ts
    else .node i sy cs :: setChildrenF ts s sub

/-- The `skipFirstLevel` group pass of `TopDownResults::fromBottomUp`:
copy each first-level bottom-up child into the top-down root, traverse its
children as a separate tree, then manually sum the group children's
inclusive costs into the group. -/
def buildTopDownGroups (c : Costs) :
    List BottomUp → TDState → TDState
  | [], st => st
  | .node _ sy cs :: rest, st =>
    let e := entryForSymbolF st.forest sy st.mx
    let g := e.2.1
    let r := buildTopDownResult c true cs [sy] ⟨g.children, st.incl, st.self, e.2.2⟩
    let st2 := r.2
    let incl' := st2.forest.foldl (fun acc child => acc.add g.id (acc.itemCost child.id)) st2.incl
    buildTopDownGroups c rest
      ⟨setChildrenF e.1 sy st2.forest, incl', st2.self, st2.mx⟩

/-- `TopDownResults::fromBottomUp`. -/
def TopDownResults.fromBottomUp (bu : BottomUpResults) (skipFirstLevel : Bool) :
    TopDownResults :=
  let incl0 := initializeCostsFrom bu.costs
  let self0 := initializeCostsFrom bu.costs
  if skipFirstLevel then
    let st := buildTopDownGroups bu.costs bu.root.children ⟨[], incl0, self0, 0⟩
    ⟨.node 0 ⟨"", ""⟩ st.forest, st.self, st.incl⟩
  else
    let r := buildTopDownResult bu.costs false bu.root.children [] ⟨[], incl0, self0, 0⟩
    ⟨.node 0 ⟨"", ""⟩ r.2.forest, r.2.self, r.2.incl⟩

/-- The index of the first occurrence of a symbol in a list, if present. -/
def symIdx : List Symbol → Symbol → Option Nat
  | [], _ => none
  | t :: ts, s =>
    if t = s then some 0
    else match symIdx ts s with
      | some i => some (i + 1)
      | none => none

/-- `CallerCalleeResults`: entries keyed by symbol (represented by the
list of symbols in first-encounter order, a symbol id id being its index),
the caller and callee cross-edge cost maps of every entry (curried over
the owning entry symbol), and the inclusive/self cost matrices keyed by
entry id.  Modelled from the spec: `CallerCalleeEntry` holds an id and two
`Symbol → ItemCost` mappings, lazily created with a freshly assigned
sequential id on first encounter (`data.h` is not part of the sources). -/
structure CallerCalleeResults where
  syms : List Symbol
  callers : Symbol → Symbol → ItemCost
  callees : Symbol → Symbol → ItemCost
  inclusiveCosts : Costs
  selfCosts : Costs

/-- Modelled from the spec: `results->entry(symbol)` — reuse the entry of
a known symbol or append the symbol with the next sequential id. -/
def CallerCalleeResults.entryId (r : CallerCalleeResults) (s : Symbol) :
    Nat × CallerCalleeResults :=
  match symIdx r.syms s with
  | some i => (i, r)
  | none => (r.syms.length, { r with syms := r.syms ++ [s] })

/-- Pointwise update of an edge-cost map at one (owner, key) pair,
mirroring the `add` helper on the entry stored `ItemCost`. -/
def updEdge (m : Symbol → Symbol → ItemCost) (a b : Symbol) (d : ItemCost) :
    Symbol → Symbol → ItemCost :=
  fun x y => if x = a ∧ y = b then addCost (m x y) d else m x y

/-- The parent-chain walk of `buildCallerCalleeResult` (the `while (node)`
loop): for each chain symbol, find-or-create its entry; credit inclusive
`diff` once per symbol per walk (`recursionGuard`); credit self `diff` at
the chain end (`!node->parent`); record the caller/callee edge of the
adjacent pair, guarded per ordered pair (`callerCalleeRecursionGuard`). -/
def ccWalk (diff : ItemCost) :
    List Symbol → Option Symbol → List Symbol → List (Symbol × Symbol) →
    CallerCalleeResults → CallerCalleeResults
  | [], _, _, _, r => r
  | s :: rest, last, g, cg, r =>
    let p := r.entryId s
    let i := p.1
    let r1 := p.2
    let r2 :=
      if s ∈ g then r1
      else { r1 with inclusiveCosts := r1.inclusiveCosts.add i diff }
    let g2 := if s ∈ g then g else s :: g
    let r3 :=
      if rest.isEmpty then { r2 with selfCosts := r2.selfCosts.add i diff }
      else r2
    let r4 :=
      match last with
      | none => r3
      | some l =>
        if (s, l) ∈ cg then r3
        else { r3 with callees := updEdge r3.callees l s diff,
                       callers := updEdge r3.callers s l diff }
    let cg2 :=
      match last with
      | none => cg
      | some l => if (s, l) ∈ cg then cg else (s, l) :: cg
    ccWalk diff rest (some s) g2 cg2 r4

/-- `buildCallerCalleeResult`: the same leaf-detection recursion as the
top-down builder; for each row whose `diff` has nonzero sum, walk the
parent chain `row.symbol :: anc` with fresh recursion guards. -/
def buildCallerCalleeResult (c : Costs) :
    List BottomUp → List Symbol → CallerCalleeResults →
    ItemCost × CallerCalleeResults
  | [], _, r => (zeroCost c.numTypes, r)
  | .node i sy cs :: rest, anc, r =>
    let rc := buildCallerCalleeResult c cs (sy :: anc) r
    let childCost := rc.1
    let rowCost := c.itemCost i
    let diff := subCost rowCost childCost
    let r2 :=
      if sumCost diff ≠ 0 then ccWalk diff (sy :: anc) none [] [] rc.2
      else rc.2
    let rr := buildCallerCalleeResult c rest anc r2
    (addCost rowCost rr.1, rr.2)

/-- Fresh, empty caller-callee results for a given category count. -/
def emptyCC (n : Nat) : CallerCalleeResults :=
  ⟨[], fun _ _ => zeroCost n, fun _ _ => zeroCost n,
    ⟨n, fun _ => zeroCost n⟩, ⟨n, fun _ => zeroCost n⟩⟩

/-- `Data::callerCalleesFromBottomUpData`, starting from empty results:
initialize the cost matrices from the bottom-up costs and run the builder
on the root children. -/
def callerCalleesFromBottomUpData (bu : BottomUpResults) : CallerCalleeResults :=
  (buildCallerCalleeResult bu.costs bu.root.children []
    (emptyCC bu.costs.numTypes)).2

/-- A flat per-library entry: a sequential id and a symbol carrying the
binary name (`Symbol(binary)` sets the name field). -/
structure PerLibrary where
  id : Nat
  symbol : Symbol

/-- `PerLibraryResults{root, costs}`; the root children are the library
entries in first-seen order (the result is a one-level tree). -/
structure PerLibraryResults where
  entries : List PerLibrary
  costs : Costs

/-- Lookup in the `binaryToResultIndex` hash, as an association list. -/
def binIdx : List (String × Nat) → String → Option Nat
  | [], _ => none
  | (b, i) :: rest, s => if b = s then some i else binIdx rest s

/-- The state threaded through `buildPerLibrary`: the library entries, the
`binaryToResultIndex` map and the aggregate costs. -/
structure PLState where
  entries : List PerLibrary
  index : List (String × Nat)
  costs : Costs

/-- `buildPerLibrary`: for every child node at any depth, find or create
(in first-seen order, with a fresh sequential id) the library entry keyed
by the binary name of the node symbol, add the node self cost to the
library aggregate bucket, and recurse into the children. -/
def buildPerLibrary (c : Costs) : List TopDown → PLState → PLState
  | [], st => st
  | .node i sy cs :: rest, st =>
    let p : Nat × PLState :=
      match binIdx st.index sy.binary with
      | some k => (k, st)
      | none =>
        (st.index.length,
         { st with
            entries := st.entries ++ [⟨st.index.length, ⟨sy.binary, ""⟩⟩],
            index := st.index ++ [(sy.binary, st.index.length)] })
    let st2 := { p.2 with costs := p.2.costs.add p.1 (c.itemCost i) }
    let st3 := buildPerLibrary c cs st2
    buildPerLibrary c rest st3

/-- `PerLibraryResults::fromTopDown`. -/
def PerLibraryResults.fromTopDown (td : TopDownResults) : PerLibraryResults :=
  let st := buildPerLibrary td.selfCosts td.root.children
    ⟨[], [], initializeCostsFrom td.selfCosts⟩
  ⟨st.entries, st.costs⟩

end Data

/-! ## The symbol prettifier (`prettifySymbol`, anonymous namespace)

The C++ operates on `QStringView`; here a string is a `List Char`.  The
recursion of the C++ is on ever shorter views of the input; the Lean
function carries a fuel argument, `prettifySymbol` supplying the length
of the input, which bounds the recursion depth (every nested call is on a
list at least five characters shorter, since it lives inside the part of
the string after an accepted `std::`). -/

/-- The needle of the initial search loop. -/
def stdMarker : List Char := ['s', 't', 'd', ':', ':']

/-- Whether a found `std::` is accepted: at the very start (`pos == 5`) or
after `<`, a space or `(` (`str[pos - 6]`). -/
def acceptPrev : Option Char → Bool
  | none => true
  | some c => c = '<' || c = ' ' || c = '('

/-- The `do ... while` search at the top of `prettifySymbol`: the position
right after the first occurrence of `std::` that starts the string or
follows `<`, space or `(`; `none` when no such occurrence exists (the
function then returns its input unchanged). -/
def findStd : Option Char → List Char → Nat → Option Nat
  | _, [], _ => none
  | prev, c :: rest, i =>
    if stdMarker.isPrefixOf (c :: rest) && acceptPrev prev then some (i + 5)
    else findStd (some c) rest (i + 1)

/-- `findSameDepth`: scan from `offset`, counting `<` and `(` up and `>`
and `)` down, and return the index of the first occurrence of `ch` seen at
depth zero after the depth update (plus one if `returnNext`). -/
def findSameDepthAux (ch : Char) (returnNext : Bool) :
    List Char → Nat → Int → Option Nat
  | [], _, _ => none
  | c :: rest, i, depth =>
    let depth' := if c = '<' || c = '(' then depth + 1
      else if c = '>' || c = ')' then depth - 1
      else depth
    if depth' = 0 ∧ c = ch then some (i + (if returnNext then 1 else 0))
    else findSameDepthAux ch returnNext rest (i + 1) depth'

def findSameDepth (s : List Char) (offset : Nat) (ch : Char)
    (returnNext : Bool) : Option Nat :=
  findSameDepthAux ch returnNext (s.drop offset) offset 0

/-- `startsWith(str, prefixes)`: the length of the first listed prefix
that `str` starts with. -/
def startsWithAny (s : List Char) : List (List Char) → Option Nat
  | [] => none
  | p :: ps => if p.isPrefixOf s then some p.length else startsWithAny s ps

def oneParameterTemplates : List (List Char) :=
  ["vector<".toList, "set<".toList, "deque<".toList, "list<".toList,
   "forward_list<".toList, "multiset<".toList, "unordered_set<".toList,
   "unordered_multiset<".toList]

def twoParametersTemplates : List (List Char) :=
  ["map<".toList, "multimap<".toList, "unordered_map<".toList,
   "unordered_multimap<".toList]

/-- One step of the big `if`/`else if` chain of `prettifySymbol` plus the
closing recursion, at a given fuel.  `prettifySymbolGo (fuel+1) str`
mirrors one invocation of the C++ function, nested calls running at
`fuel`.  The `none` fallbacks on the closing-bracket `findSameDepth` model
`QStringView::mid(-1)`, which clamps to the full view. -/
def prettifySymbolGo : Nat → List Char → List Char
  | 0, str => str
  | fuel + 1, str =>
    match findStd none str 0 with
    | none => str
    | some pos =>
      let res0 := str.take pos
      let sym0 := str.drop pos
      let sym1 :=
        match startsWithAny sym0 ["__cxx11::".toList, "__1::".toList] with
        | some e => sym0.drop e
        | none => sym0
      let rs : List Char × List Char :=
        match startsWithAny sym1 ["basic_string<".toList] with
        | some e =>
          match findSameDepth sym1 e ',' false with
          | some comma =>
            let type := (sym1.drop e).take (comma - e)
            let res1 :=
              if type = "char".toList then res0 ++ "string".toList
              else if type = "wchar_t".toList then res0 ++ "wstring".toList
              else res0 ++ sym1.take e ++ type ++ ['>']
            let sym2 :=
              match findSameDepth sym1 0 '>' true with
              | some e2 => sym1.drop e2
              | none => sym1
            match startsWithAny sym2
                ["::basic_string(".toList, "::~basic_string(".toList] with
            | some e3 =>
              let res2 := res1 ++ "::".toList
              let res2 := if sym2.get? 2 = some '~' then res2 ++ ['~'] else res2
              let res2 :=
                if type = "wchar_t".toList then res2 ++ ['w']
                else if type ≠ "char".toList then res2 ++ "basic_".toList
                else res2
              (res2 ++ "string(".toList, sym2.drop e3)
            | none => (res1, sym2)
          | none => (res0, sym1)
        | none =>
        match startsWithAny sym1 oneParameterTemplates with
        | some e =>
          match findSameDepth sym1 e ',' false with
          | some comma =>
            let res1 := res0 ++ sym1.take e
              ++ prettifySymbolGo fuel ((sym1.drop e).take (comma - e)) ++ ['>']
            let sym2 :=
              match findSameDepth sym1 0 '>' true with
              | some e2 => sym1.drop e2
              | none => sym1
            (res1, sym2)
          | none => (res0, sym1)
        | none =>
        match startsWithAny sym1 twoParametersTemplates with
        | some e =>
          match findSameDepth sym1 e ',' false with
          | some c1 =>
            match findSameDepth sym1 (c1 + 1) ',' false with
            | some c2 =>
              let res1 := res0 ++ sym1.take e
                ++ prettifySymbolGo fuel ((sym1.drop e).take (c1 - e))
                ++ prettifySymbolGo fuel ((sym1.drop c1).take (c2 - c1)) ++ ['>']
              let sym2 :=
                match findSameDepth sym1 0 '>' true with
                | some e2 => sym1.drop e2
                | none => sym1
              (res1, sym2)
            | none => (res0, sym1)
          | none => (res0, sym1)
        | none =>
        match startsWithAny sym1 ["allocator<".toList] with
        | some e =>
          match findSameDepth sym1 0 '>' true with
          | some gt => (res0 ++ sym1.take e ++ "...>".toList, sym1.drop gt)
          | none => (res0, sym1)
        | none => (res0, sym1)
      if rs.2.isEmpty then rs.1 else rs.1 ++ prettifySymbolGo fuel rs.2

/-- The anonymous-namespace `prettifySymbol`. -/
def prettifySymbol (str : List Char) : List Char :=
  prettifySymbolGo str.length str

/-- `Data::prettifySymbol`, the public entry point: returns the input
object itself when prettification does not change it (named `Entry` here
because inside `namespace Data` the bare name would shadow the
anonymous-namespace function it must call). -/
def Data.prettifySymbolEntry (name : List Char) : List Char :=
  let result := prettifySymbol name
  if result = name then name else result

/-! ## Basic lemmas about cost vectors and cost matrices -/

namespace Data

/-- A cost vector with only nonnegative components. -/
def NonnegCost (a : ItemCost) : Prop := ∀ x ∈ a, 0 ≤ x

lemma length_zeroCost (n : Nat) : (zeroCost n).length = n := by
  simp [zeroCost]

lemma length_addCost (a b : ItemCost) :
    (addCost a b).length = min a.length b.length := by
  simp [addCost]

lemma length_subCost (a b : ItemCost) :
    (subCost a b).length = min a.length b.length := by
  simp [subCost]

lemma addCost_comm (a b : ItemCost) : addCost a b = addCost b a := by
  induction a generalizing b with
  | nil => cases b <;> simp [addCost]
  | cons x xs ih =>
    cases b with
    | nil => simp [addCost]
    | cons y ys => simp [addCost] at ih ⊢; exact ⟨Int.add_comm x y, ih ys⟩

lemma addCost_assoc (a b c : ItemCost) :
    addCost (addCost a b) c = addCost a (addCost b c) := by
  induction a generalizing b c with
  | nil => simp [addCost]
  | cons x xs ih =>
    cases b with
    | nil => simp [addCost]
    | cons y ys =>
      cases c with
      | nil => simp [addCost]
      | cons z zs =>
        have h2 := ih ys zs
        simp only [addCost] at h2 ⊢
        simp [h2, Int.add_assoc]

lemma addCost_zero_right (a : ItemCost) (n : Nat) (h : a.length = n) :
    addCost a (zeroCost n) = a := by
  subst h
  induction a with
  | nil => rfl
  | cons x xs ih =>
    simp only [addCost, zeroCost, List.length_cons, List.replicate_succ,
      List.zipWith_cons_cons, Int.add_zero] at ih ⊢
    simp [ih]

lemma addCost_zero_left (a : ItemCost) (n : Nat) (h : a.length = n) :
    addCost (zeroCost n) a = a := by
  rw [addCost_comm]; exact addCost_zero_right a n h

lemma addCost_sub_cancel (a b : ItemCost) (h : a.length = b.length) :
    addCost (subCost a b) b = a := by
  induction a generalizing b with
  | nil => simp [addCost, subCost]
  | cons x xs ih =>
    cases b with
    | nil => simp at h
    | cons y ys =>
      simp [addCost, subCost] at ih ⊢
      exact ih ys (by simpa using h)

lemma sumCost_nonneg (d : ItemCost) (hn : NonnegCost d) : 0 ≤ sumCost d := by
  induction d with
  | nil => simp [sumCost]
  | cons x xs ih =>
    have h1 := ih (fun y hy => hn y (List.mem_cons_of_mem _ hy))
    have hx := hn x (List.mem_cons_self _ _)
    have h2 : sumCost (x :: xs) = x + sumCost xs := rfl
    omega

lemma sumCost_nonneg_eq_zero (d : ItemCost) (hn : NonnegCost d)
    (hz : sumCost d = 0) : d = zeroCost d.length := by
  induction d with
  | nil => rfl
  | cons x xs ih =>
    have hx := hn x (List.mem_cons_self _ _)
    have hxs : NonnegCost xs := fun y hy => hn y (List.mem_cons_of_mem _ hy)
    have h1 : 0 ≤ sumCost xs := sumCost_nonneg xs hxs
    have hz' : x + sumCost xs = 0 := hz
    have hx0 : x = 0 := by omega
    have hs0 : sumCost xs = 0 := by omega
    simp only [zeroCost, List.length_cons, List.replicate_succ, hx0]
    simpa [zeroCost] using ih hxs hs0

lemma Costs.table_add_self (c : Costs) (i : Nat) (d : ItemCost) :
    (c.add i d).table i = addCost (c.table i) d := by
  simp [Costs.add]

lemma Costs.table_add_ne (c : Costs) (i j : Nat) (d : ItemCost) (h : j ≠ i) :
    (c.add i d).table j = c.table j := by
  simp [Costs.add, h]

lemma Costs.numTypes_add (c : Costs) (i : Nat) (d : ItemCost) :
    (c.add i d).numTypes = c.numTypes := rfl

lemma Costs.WF.add (c : Costs) (hc : c.WF) (i : Nat) (d : ItemCost)
    (hd : d.length = c.numTypes) : (c.add i d).WF := by
  intro j
  by_cases hj : j = i
  · subst hj
    rw [Costs.table_add_self, Costs.numTypes_add, length_addCost, hc j, hd]
    simp
  · rw [Costs.table_add_ne c i j d hj]
    exact hc j

lemma idsSum_length (c : Costs) (hc : c.WF) (l : List Nat) :
    (idsSum c l).length = c.numTypes := by
  induction l with
  | nil => simp [idsSum, length_zeroCost]
  | cons i rest ih => simp [idsSum, length_addCost, hc i, ih]

lemma idsSum_append (c : Costs) (hc : c.WF) (l₁ l₂ : List Nat) :
    idsSum c (l₁ ++ l₂) = addCost (idsSum c l₁) (idsSum c l₂) := by
  induction l₁ with
  | nil =>
    simp [idsSum]
    rw [addCost_zero_left _ c.numTypes (idsSum_length c hc l₂)]
  | cons i rest ih => simp [idsSum, ih, addCost_assoc]

lemma idsSum_add_notMem (c : Costs) (i : Nat) (d : ItemCost) (l : List Nat)
    (h : i ∉ l) : idsSum (c.add i d) l = idsSum c l := by
  induction l with
  | nil => simp [idsSum, Costs.add]
  | cons j rest ih =>
    simp at h
    push_neg at h
    simp [idsSum, Costs.table_add_ne c i j d (Ne.symm h.1), ih h.2,
      Costs.numTypes_add]

lemma idsSum_add_mem (c : Costs) (i : Nat) (d : ItemCost)
    (l : List Nat) (hnd : l.Nodup) (h : i ∈ l) :
    idsSum (c.add i d) l = addCost (idsSum c l) d := by
  induction l with
  | nil => simp at h
  | cons j rest ih =>
    rcases List.mem_cons.mp h with hj | hrest
    · subst hj
      have hnotin : i ∉ rest := (List.nodup_cons.mp hnd).1
      simp [idsSum, Costs.table_add_self, Costs.numTypes_add,
        idsSum_add_notMem c i d rest hnotin]
      rw [addCost_assoc, addCost_comm d (idsSum c rest), ← addCost_assoc]
    · have hji : j ≠ i := by
        rintro rfl
        exact (List.nodup_cons.mp hnd).1 hrest
      simp [idsSum, Costs.table_add_ne c i j d hji, Costs.numTypes_add,
        ih (List.nodup_cons.mp hnd).2 hrest]
      rw [addCost_assoc]

end Data

/-! ## The prettifier: the no-occurrence case and idempotence -/

lemma findStd_eq_none (s : List Char) (prev : Option Char) (i : Nat)
    (h : ¬ stdMarker <:+: s) : findStd prev s i = none := by
  induction s generalizing prev i with
  | nil => rfl
  | cons c rest ih =>
    have h1 : stdMarker.isPrefixOf (c :: rest) = false := by
      rw [Bool.eq_false_iff]
      intro hp
      exact h (List.IsPrefix.isInfix (List.isPrefixOf_iff_prefix.mp hp))
    have h2 : ¬ stdMarker <:+: rest := fun hi => h (List.infix_cons hi)
    simp only [findStd, h1, Bool.false_and, Bool.false_eq_true, if_false]
    exact ih (some c) (i + 1) h2

lemma prettifySymbolGo_no_std (fuel : Nat) (s : List Char)
    (h : ¬ stdMarker <:+: s) : prettifySymbolGo fuel s = s := by
  cases fuel with
  | zero => rfl
  | succ f => simp [prettifySymbolGo, findStd_eq_none s none 0 h]

lemma prettifySymbol_no_std (s : List Char) (h : ¬ stdMarker <:+: s) :
    prettifySymbol s = s :=
  prettifySymbolGo_no_std s.length s h

/-- C10: for every input string with no occurrence of the substring
`std::`, the prettifier returns the input unchanged: the search loop at
the head of `prettifySymbol` runs out of occurrences at once and returns
its argument. -/
theorem claim_C10_prettify_without_std (s : List Char)
    (h : ¬ "std::".toList <:+: s) : prettifySymbol s = s := by
  have hm : ¬ stdMarker <:+: s := by
    simpa [show stdMarker = "std::".toList by decide] using h
  exact prettifySymbol_no_std s hm

theorem claim_C10_prettify_without_std_witness :
    ¬ "std::".toList <:+: "foo(bar)".toList ∧
      prettifySymbol "foo(bar)".toList = "foo(bar)".toList :=
  ⟨by decide, claim_C10_prettify_without_std "foo(bar)".toList (by decide)⟩

/-- C8 counterexample: the prettifier is not idempotent.  On
`std::basic_string<std::vector<a,b>,x>` the first pass rewrites the
`basic_string` template but embeds its first type argument
(`std::vector<a,b>`) verbatim, producing
`std::basic_string<std::vector<a,b>>`; a second pass then rewrites the
embedded `vector` to `std::basic_string<std::vector<a>>`. -/
theorem claim_C8_counterexample :
    Data.prettifySymbolEntry (Data.prettifySymbolEntry
      "std::basic_string<std::vector<a,b>,x>".toList) ≠
    Data.prettifySymbolEntry "std::basic_string<std::vector<a,b>,x>".toList := by
  decide

/-- C8 amended: the prettifier is a pure function and is idempotent on
every input string that contains no occurrence of `std::` (on such input
it is the identity); it is not idempotent in general, because the
`basic_string` rewrite embeds a non-`char` first type argument verbatim,
which a second pass may rewrite further. -/
theorem claim_C8_prettify_idempotent_without_std (s : List Char)
    (h : ¬ "std::".toList <:+: s) :
    Data.prettifySymbolEntry (Data.prettifySymbolEntry s) =
      Data.prettifySymbolEntry s := by
  have hm : ¬ stdMarker <:+: s := by
    simpa [show stdMarker = "std::".toList by decide] using h
  have h0 : prettifySymbol s = s := prettifySymbol_no_std s hm
  simp [Data.prettifySymbolEntry, h0]

theorem claim_C8_prettify_idempotent_without_std_witness :
    ¬ "std::".toList <:+: "myNamespace::vector<int>".toList ∧
      Data.prettifySymbolEntry (Data.prettifySymbolEntry
        "myNamespace::vector<int>".toList) =
        Data.prettifySymbolEntry "myNamespace::vector<int>".toList :=
  ⟨by decide,
   claim_C8_prettify_idempotent_without_std "myNamespace::vector<int>".toList
     (by decide)⟩

/-! ## C2: the top-down parent-chain walk -/

namespace Data

/-- How many chain nodes the top-down walk visits before it stops: all of
them, except that with `skipFirstLevel` on a chain of at least two the
walk stops one node early (at the node whose parent has no parent). -/
def stopLen (skip : Bool) (len : Nat) : Nat :=
  if skip ∧ 2 ≤ len then len - 1 else len

lemma stopLen_of_isLast (skip : Bool) (rest : List Symbol)
    (h : isLastNode skip rest = true) : stopLen skip (rest.length + 1) = 1 := by
  simp only [isLastNode, Bool.or_eq_true, Bool.and_eq_true, beq_iff_eq,
    List.isEmpty_iff] at h
  rcases h with h | ⟨hs, h1⟩
  · subst h
    simp [stopLen]
  · subst hs
    simp [stopLen, h1]

lemma walk_not_isLast_rest_ne_nil (skip : Bool) (rest : List Symbol)
    (h : ¬ isLastNode skip rest = true) : rest ≠ [] := by
  intro h0
  subst h0
  simp [isLastNode] at h

lemma stopLen_of_not_isLast (skip : Bool) (rest : List Symbol)
    (h : ¬ isLastNode skip rest = true) :
    stopLen skip (rest.length + 1) = stopLen skip rest.length + 1 := by
  have h0 : rest ≠ [] := walk_not_isLast_rest_ne_nil skip rest h
  have hl0 : rest.length ≠ 0 := fun hh => h0 (List.length_eq_zero.mp hh)
  cases skip with
  | false => simp [stopLen]
  | true =>
    have h1 : rest.length ≠ 1 := by
      intro hh
      apply h
      simp [isLastNode, hh]
    have h2 : 2 ≤ rest.length := by omega
    simp only [stopLen, true_and]
    rw [if_pos (show 2 ≤ rest.length + 1 by omega), if_pos h2]
    omega

end Data

/-- C2: in the top-down walk for one leaf contribution `diff`, there is a
list of visited top-down frames (given by their ids, in walk order) such
that every visited frame has `diff` added to its inclusive cost
unconditionally, the last visited frame alone has `diff` added to its self
cost, and the number of visited chain nodes is exactly `stopLen`: the walk
stops at the first chain node with no parent or — when `skipFirstLevel` is
set — whose parent has no parent. -/
theorem claim_C2_walk_credits (skip : Bool) (diff : Data.ItemCost)
    (chain : List Data.Symbol) (f : List Data.TopDown)
    (incl self : Data.Costs) (mx : Nat) (h : chain ≠ []) :
    ∃ vs : List Nat, ∃ iLast : Nat,
      (vs ++ [iLast]).length = Data.stopLen skip chain.length ∧
      (Data.walkChain skip diff chain f incl self mx).2.1 =
        (vs ++ [iLast]).foldl (fun c i => c.add i diff) incl ∧
      (Data.walkChain skip diff chain f incl self mx).2.2.1 =
        self.add iLast diff := by
  induction chain, f, incl, self, mx using Data.walkChain.induct skip diff with
  | case1 f incl self mx => exact absurd rfl h
  | case2 s rest incl self mx hlast =>
    refine ⟨[], mx, ?_, ?_, ?_⟩
    · simpa using (Data.stopLen_of_isLast skip rest hlast).symm
    · simp [Data.walkChain, hlast]
    · simp [Data.walkChain, hlast]
  | case3 s rest incl self mx _incl hlast ih =>
    obtain ⟨vs, iLast, hlen, hincl, hself⟩ :=
      ih (Data.walk_not_isLast_rest_ne_nil skip rest hlast)
    refine ⟨mx :: vs, iLast, ?_, ?_, ?_⟩
    · simp only [List.cons_append, List.length_cons]
      rw [Data.stopLen_of_not_isLast skip rest hlast]
      simpa using hlen
    · simp only [Data.walkChain, hlast, if_neg, Bool.false_eq_true,
        not_false_iff, if_false]
      simpa [Data.walkChain, hlast] using hincl
    · simpa [Data.walkChain, hlast] using hself
  | case4 rest i sy cs ts incl self mx hlast =>
    refine ⟨[], i, ?_, ?_, ?_⟩
    · simpa using (Data.stopLen_of_isLast skip rest hlast).symm
    · simp [Data.walkChain, hlast]
    · simp [Data.walkChain, hlast]
  | case5 rest i sy cs ts incl self mx _incl hlast ih =>
    obtain ⟨vs, iLast, hlen, hincl, hself⟩ :=
      ih (Data.walk_not_isLast_rest_ne_nil skip rest hlast)
    refine ⟨i :: vs, iLast, ?_, ?_, ?_⟩
    · simp only [List.cons_append, List.length_cons]
      rw [Data.stopLen_of_not_isLast skip rest hlast]
      simpa using hlen
    · simpa [Data.walkChain, hlast] using hincl
    · simpa [Data.walkChain, hlast] using hself
  | case6 s rest i sy cs ts incl self mx hne ih =>
    obtain ⟨vs, iLast, hlen, hincl, hself⟩ := ih h
    exact ⟨vs, iLast, hlen,
      by simpa [Data.walkChain, hne] using hincl,
      by simpa [Data.walkChain, hne] using hself⟩

/-- Witness for C2 at a concrete two-node chain. -/
theorem claim_C2_walk_credits_witness :
    ∃ vs : List Nat, ∃ iLast : Nat,
      (vs ++ [iLast]).length =
        Data.stopLen false [Data.Symbol.mk "a" "", Data.Symbol.mk "b" ""].length ∧
      (Data.walkChain false [1] [Data.Symbol.mk "a" "", Data.Symbol.mk "b" ""]
        [] (Data.mkCosts 1 []) (Data.mkCosts 1 []) 0).2.1 =
        (vs ++ [iLast]).foldl (fun c i => c.add i [1]) (Data.mkCosts 1 []) ∧
      (Data.walkChain false [1] [Data.Symbol.mk "a" "", Data.Symbol.mk "b" ""]
        [] (Data.mkCosts 1 []) (Data.mkCosts 1 []) 0).2.2.1 =
        (Data.mkCosts 1 []).add iLast [1] :=
  claim_C2_walk_credits false [1] [Data.Symbol.mk "a" "", Data.Symbol.mk "b" ""]
    [] (Data.mkCosts 1 []) (Data.mkCosts 1 []) 0 (by decide)

/-! ## C5: caller/callee edge symmetry -/

namespace Data

/-- The edge maps of the results stay symmetric through one walk step and
hence through a whole walk: a callee edge and its mirror caller edge are
always written together, under the same guard. -/
lemma ccWalk_symm (diff : ItemCost) (cs : List Symbol) :
    ∀ (last : Option Symbol) (g : List Symbol) (cg : List (Symbol × Symbol))
      (r : CallerCalleeResults),
      (∀ a b, r.callees a b = r.callers b a) →
      ∀ a b, (ccWalk diff cs last g cg r).callees a b =
        (ccWalk diff cs last g cg r).callers b a := by
  induction cs with
  | nil =>
    intro last g cg r hsym a b
    simpa [ccWalk] using hsym a b
  | cons s rest ih =>
    intro last g cg r hsym a b
    simp only [ccWalk]
    apply ih
    intro x y
    rcases last with _ | l
    · by_cases hg : s ∈ g <;> by_cases he : rest.isEmpty <;>
        cases hsi : symIdx r.syms s <;>
        simp [CallerCalleeResults.entryId, hsi, hg, he, hsym]
    · by_cases hcg : (s, l) ∈ cg
      · by_cases hg : s ∈ g <;> by_cases he : rest.isEmpty <;>
          cases hsi : symIdx r.syms s <;>
          simp [CallerCalleeResults.entryId, hsi, hg, he, hcg, hsym]
      · by_cases hg : s ∈ g <;> by_cases he : rest.isEmpty <;>
          cases hsi : symIdx r.syms s <;>
          by_cases hx : x = l <;> by_cases hy : y = s <;>
          simp [CallerCalleeResults.entryId, hsi, hg, he, hcg, updEdge,
            hx, hy, hsym]

lemma buildCC_symm (c : Costs) (rows : List BottomUp) (anc : List Symbol)
    (r : CallerCalleeResults)
    (hsym : ∀ a b, r.callees a b = r.callers b a) :
    ∀ a b, (buildCallerCalleeResult c rows anc r).2.callees a b =
      (buildCallerCalleeResult c rows anc r).2.callers b a := by
  induction rows, anc, r using buildCallerCalleeResult.induct c with
  | case1 anc r =>
    intro a b
    simpa [buildCallerCalleeResult] using hsym a b
  | case2 i sy cs rest anc r rc childCost rowCost diff r2 ihcs ihrest =>
    intro a b
    simp only [buildCallerCalleeResult]
    apply ihrest
    intro x y
    unfold r2 diff rowCost childCost rc
    split
    · exact ccWalk_symm _ _ _ _ _ _ (ihcs hsym) x y
    · exact ihcs hsym x y

end Data

/-- C5: caller-callee edge symmetry.  In the results built by the
caller-callee builder from any bottom-up input, starting from empty
results, a symbol `A` carries cost `C` in the callee map of `B` exactly
when `B` carries the identical cost `C` in the caller map of `A` (the two
edge maps are pointwise mirror images). -/
theorem claim_C5_edge_symmetry (bu : Data.BottomUpResults)
    (A B : Data.Symbol) :
    (Data.callerCalleesFromBottomUpData bu).callees B A =
      (Data.callerCalleesFromBottomUpData bu).callers A B :=
  Data.buildCC_symm bu.costs bu.root.children [] (Data.emptyCC bu.costs.numTypes)
    (fun _ _ => rfl) B A

/-! ## C4: the edge recursion guard is per ordered pair -/

namespace Data

/-- The results after one iteration of the caller-callee walk loop on
chain head `s` (the value called `r4` in the embedding of the loop body),
factored out for the proofs. -/
def ccStep (diff : ItemCost) (s : Symbol) (rest : List Symbol)
    (last : Option Symbol) (g : List Symbol) (cg : List (Symbol × Symbol))
    (r : CallerCalleeResults) : CallerCalleeResults :=
  let p := r.entryId s
  let i := p.1
  let r1 := p.2
  let r2 :=
    if s ∈ g then r1
    else { r1 with inclusiveCosts := r1.inclusiveCosts.add i diff }
  let r3 :=
    if rest.isEmpty then { r2 with selfCosts := r2.selfCosts.add i diff }
    else r2
  match last with
  | none => r3
  | some l =>
    if (s, l) ∈ cg then r3
    else { r3 with callees := updEdge r3.callees l s diff,
                   callers := updEdge r3.callers s l diff }

/-- The symbol guard after one iteration. -/
def ccStepG (s : Symbol) (g : List Symbol) : List Symbol :=
  if s ∈ g then g else s :: g

/-- The pair guard after one iteration. -/
def ccStepCG (s : Symbol) (last : Option Symbol)
    (cg : List (Symbol × Symbol)) : List (Symbol × Symbol) :=
  match last with
  | none => cg
  | some l => if (s, l) ∈ cg then cg else (s, l) :: cg

lemma ccWalk_cons (diff : ItemCost) (s : Symbol) (rest : List Symbol)
    (last : Option Symbol) (g : List Symbol) (cg : List (Symbol × Symbol))
    (r : CallerCalleeResults) :
    ccWalk diff (s :: rest) last g cg r =
      ccWalk diff rest (some s) (ccStepG s g) (ccStepCG s last cg)
        (ccStep diff s rest last g cg r) := by
  simp only [ccWalk, ccStep, ccStepG, ccStepCG]

lemma ccStep_callees_none (diff : ItemCost) (s : Symbol) (rest : List Symbol)
    (g : List Symbol) (cg : List (Symbol × Symbol)) (r : CallerCalleeResults) :
    (ccStep diff s rest none g cg r).callees = r.callees := by
  unfold ccStep
  cases hsi : symIdx r.syms s <;> by_cases hg : s ∈ g <;>
    by_cases he : rest.isEmpty <;>
    simp [CallerCalleeResults.entryId, hsi, hg, he]

lemma ccStep_callers_none (diff : ItemCost) (s : Symbol) (rest : List Symbol)
    (g : List Symbol) (cg : List (Symbol × Symbol)) (r : CallerCalleeResults) :
    (ccStep diff s rest none g cg r).callers = r.callers := by
  unfold ccStep
  cases hsi : symIdx r.syms s <;> by_cases hg : s ∈ g <;>
    by_cases he : rest.isEmpty <;>
    simp [CallerCalleeResults.entryId, hsi, hg, he]

lemma ccStep_callees_guarded (diff : ItemCost) (s l : Symbol)
    (rest : List Symbol) (g : List Symbol) (cg : List (Symbol × Symbol))
    (r : CallerCalleeResults) (h : (s, l) ∈ cg) :
    (ccStep diff s rest (some l) g cg r).callees = r.callees := by
  unfold ccStep
  cases hsi : symIdx r.syms s <;> by_cases hg : s ∈ g <;>
    by_cases he : rest.isEmpty <;>
    simp [CallerCalleeResults.entryId, hsi, hg, he, h]

lemma ccStep_callers_guarded (diff : ItemCost) (s l : Symbol)
    (rest : List Symbol) (g : List Symbol) (cg : List (Symbol × Symbol))
    (r : CallerCalleeResults) (h : (s, l) ∈ cg) :
    (ccStep diff s rest (some l) g cg r).callers = r.callers := by
  unfold ccStep
  cases hsi : symIdx r.syms s <;> by_cases hg : s ∈ g <;>
    by_cases he : rest.isEmpty <;>
    simp [CallerCalleeResults.entryId, hsi, hg, he, h]

lemma ccStep_callees_unguarded (diff : ItemCost) (s l : Symbol)
    (rest : List Symbol) (g : List Symbol) (cg : List (Symbol × Symbol))
    (r : CallerCalleeResults) (h : (s, l) ∉ cg) :
    (ccStep diff s rest (some l) g cg r).callees =
      updEdge r.callees l s diff := by
  unfold ccStep
  cases hsi : symIdx r.syms s <;> by_cases hg : s ∈ g <;>
    by_cases he : rest.isEmpty <;>
    simp [CallerCalleeResults.entryId, hsi, hg, he, h]

lemma ccStep_callers_unguarded (diff : ItemCost) (s l : Symbol)
    (rest : List Symbol) (g : List Symbol) (cg : List (Symbol × Symbol))
    (r : CallerCalleeResults) (h : (s, l) ∉ cg) :
    (ccStep diff s rest (some l) g cg r).callers =
      updEdge r.callers s l diff := by
  unfold ccStep
  cases hsi : symIdx r.syms s <;> by_cases hg : s ∈ g <;>
    by_cases he : rest.isEmpty <;>
    simp [CallerCalleeResults.entryId, hsi, hg, he, h]

end Data

namespace Data

/-- Within one walk, a callee-map cell is credited at most once, and a
cell whose ordered guard pair is already in `cg` is never credited. -/
lemma ccWalk_callee_once (diff : ItemCost) (cs : List Symbol) :
    ∀ (last : Option Symbol) (g : List Symbol) (cg : List (Symbol × Symbol))
      (r : CallerCalleeResults) (a b : Symbol),
      ((b, a) ∈ cg → (ccWalk diff cs last g cg r).callees a b = r.callees a b) ∧
      ((ccWalk diff cs last g cg r).callees a b = r.callees a b ∨
        (ccWalk diff cs last g cg r).callees a b =
          addCost (r.callees a b) diff) := by
  induction cs with
  | nil =>
    intro last g cg r a b
    exact ⟨fun _ => rfl, Or.inl rfl⟩
  | cons s rest ih =>
    intro last g cg r a b
    rw [ccWalk_cons]
    rcases last with _ | l
    · have hstep := ccStep_callees_none diff s rest g cg r
      obtain ⟨ih1, ih2⟩ :=
        ih (some s) (ccStepG s g) cg (ccStep diff s rest none g cg r) a b
      rw [hstep] at ih1 ih2
      exact ⟨ih1, ih2⟩
    · by_cases hcg : (s, l) ∈ cg
      · have hstep := ccStep_callees_guarded diff s l rest g cg r hcg
        have hcg2 : ccStepCG s (some l) cg = cg := by simp [ccStepCG, hcg]
        rw [hcg2]
        obtain ⟨ih1, ih2⟩ :=
          ih (some s) (ccStepG s g) cg (ccStep diff s rest (some l) g cg r) a b
        rw [hstep] at ih1 ih2
        exact ⟨ih1, ih2⟩
      · have hstep := ccStep_callees_unguarded diff s l rest g cg r hcg
        have hcg2 : ccStepCG s (some l) cg = (s, l) :: cg := by
          simp [ccStepCG, hcg]
        rw [hcg2]
        obtain ⟨ih1, ih2⟩ :=
          ih (some s) (ccStepG s g) ((s, l) :: cg)
            (ccStep diff s rest (some l) g cg r) a b
        rw [hstep] at ih1 ih2
        by_cases hab : a = l ∧ b = s
        · obtain ⟨rfl, rfl⟩ := hab
          have hupd : updEdge r.callees a b diff a b =
              addCost (r.callees a b) diff := by simp [updEdge]
          constructor
          · intro hmem
            exact absurd hmem hcg
          · right
            rw [ih1 (by simp), hupd]
        · have hupd : updEdge r.callees l s diff a b = r.callees a b := by
            simp only [updEdge, if_neg hab]
          constructor
          · intro hmem
            rw [ih1 (by simp [hmem]), hupd]
          · rcases ih2 with h | h <;> rw [h, hupd]
            · exact Or.inl rfl
            · exact Or.inr rfl

/-- The mirror of `ccWalk_callee_once` for the caller maps. -/
lemma ccWalk_caller_once (diff : ItemCost) (cs : List Symbol) :
    ∀ (last : Option Symbol) (g : List Symbol) (cg : List (Symbol × Symbol))
      (r : CallerCalleeResults) (a b : Symbol),
      ((a, b) ∈ cg → (ccWalk diff cs last g cg r).callers a b = r.callers a b) ∧
      ((ccWalk diff cs last g cg r).callers a b = r.callers a b ∨
        (ccWalk diff cs last g cg r).callers a b =
          addCost (r.callers a b) diff) := by
  induction cs with
  | nil =>
    intro last g cg r a b
    exact ⟨fun _ => rfl, Or.inl rfl⟩
  | cons s rest ih =>
    intro last g cg r a b
    rw [ccWalk_cons]
    rcases last with _ | l
    · have hstep := ccStep_callers_none diff s rest g cg r
      obtain ⟨ih1, ih2⟩ :=
        ih (some s) (ccStepG s g) cg (ccStep diff s rest none g cg r) a b
      rw [hstep] at ih1 ih2
      exact ⟨ih1, ih2⟩
    · by_cases hcg : (s, l) ∈ cg
      · have hstep := ccStep_callers_guarded diff s l rest g cg r hcg
        have hcg2 : ccStepCG s (some l) cg = cg := by simp [ccStepCG, hcg]
        rw [hcg2]
        obtain ⟨ih1, ih2⟩ :=
          ih (some s) (ccStepG s g) cg (ccStep diff s rest (some l) g cg r) a b
        rw [hstep] at ih1 ih2
        exact ⟨ih1, ih2⟩
      · have hstep := ccStep_callers_unguarded diff s l rest g cg r hcg
        have hcg2 : ccStepCG s (some l) cg = (s, l) :: cg := by
          simp [ccStepCG, hcg]
        rw [hcg2]
        obtain ⟨ih1, ih2⟩ :=
          ih (some s) (ccStepG s g) ((s, l) :: cg)
            (ccStep diff s rest (some l) g cg r) a b
        rw [hstep] at ih1 ih2
        by_cases hab : a = s ∧ b = l
        · obtain ⟨rfl, rfl⟩ := hab
          have hupd : updEdge r.callers a b diff a b =
              addCost (r.callers a b) diff := by simp [updEdge]
          constructor
          · intro hmem
            exact absurd hmem hcg
          · right
            rw [ih1 (by simp), hupd]
        · have hupd : updEdge r.callers s l diff a b = r.callers a b := by
            simp only [updEdge, if_neg hab]
          constructor
          · intro hmem
            rw [ih1 (by simp [hmem]), hupd]
          · rcases ih2 with h | h <;> rw [h, hupd]
            · exact Or.inl rfl
            · exact Or.inr rfl

end Data

/-- The two symbols of the recursive example stack. -/
def exA : Data.Symbol := ⟨"A", "x"⟩

def exB : Data.Symbol := ⟨"B", "x"⟩

/-- A bottom-up input whose single sampled stack is the recursive chain
`A ← B ← A` (the leaf frame `A` called from `B` called from `A`), with one
cost category and a single unit of cost attributed at the leaf. -/
def exRecBU : Data.BottomUpResults :=
  ⟨.node 100 ⟨"", ""⟩ [.node 0 exA [.node 1 exB [.node 2 exA []]]],
   Data.mkCosts 1 [(0, [1]), (1, [1]), (2, [1])]⟩

/-- C4 counterexample: the second recursion guard stores the ordered pair
`(current, previous)`, not an unordered one.  On the single walk for the
chain `A, B, A` the adjacency `{A,B}` occurs twice, in opposite
orientations; the claim says the second occurrence must not add edge cost,
yet both cells are credited: the callee map of `A` at `B` (first
adjacency) and the callee map of `B` at `A` (second adjacency, written
only there) both end at `[1]`, not at the untouched zero vector. -/
theorem claim_C4_counterexample :
    (Data.callerCalleesFromBottomUpData exRecBU).callees exA exB = [1] ∧
    (Data.callerCalleesFromBottomUpData exRecBU).callees exB exA = [1] ∧
    ([1] : Data.ItemCost) ≠ Data.zeroCost 1 := by
  simp +decide [Data.callerCalleesFromBottomUpData, Data.buildCallerCalleeResult,
    Data.ccWalk, Data.mkCosts, Data.emptyCC, Data.Costs.add,
    Data.CallerCalleeResults.entryId, Data.symIdx, Data.updEdge, exRecBU,
    exA, exB, Data.Costs.itemCost, Data.subCost, Data.addCost, Data.sumCost,
    Data.zeroCost, Data.BottomUp.children, Data.BottomUp.id,
    Data.BottomUp.symbol, Data.lookupCost]

/-- C4 amended: caller/callee edge costs are guarded per walk by the
ORDERED pair (current symbol, previous symbol): within one walk, once an
adjacency has been credited with `diff`, no later adjacency of the same
two symbols in the same orientation adds edge cost again — every cell of
the callee and caller maps changes at most once per walk (the opposite
orientation is guarded independently). -/
theorem claim_C4_edge_guard_ordered (diff : Data.ItemCost)
    (cs : List Data.Symbol) (r : Data.CallerCalleeResults)
    (a b : Data.Symbol) :
    ((Data.ccWalk diff cs none [] [] r).callees a b = r.callees a b ∨
      (Data.ccWalk diff cs none [] [] r).callees a b =
        Data.addCost (r.callees a b) diff) ∧
    ((Data.ccWalk diff cs none [] [] r).callers a b = r.callers a b ∨
      (Data.ccWalk diff cs none [] [] r).callers a b =
        Data.addCost (r.callers a b) diff) :=
  ⟨(Data.ccWalk_callee_once diff cs none [] [] r a b).2,
   (Data.ccWalk_caller_once diff cs none [] [] r a b).2⟩

/-! ## C3: inclusive cost is credited once per walk -/

namespace Data

lemma symIdx_eq_none_iff (l : List Symbol) (s : Symbol) :
    symIdx l s = none ↔ s ∉ l := by
  induction l with
  | nil => simp [symIdx]
  | cons t ts ih =>
    constructor
    · intro h hmem
      by_cases ht : t = s
      · subst ht
        simp [symIdx] at h
      · cases hi : symIdx ts s with
        | none =>
          rcases List.mem_cons.mp hmem with rfl | hmem2
          · exact ht rfl
          · exact (ih.mp hi) hmem2
        | some k => simp [symIdx, ht, hi] at h
    · intro h
      have ht : t ≠ s := fun hh => h (hh ▸ List.mem_cons_self t ts)
      have hts : s ∉ ts := fun hh => h (List.mem_cons_of_mem t hh)
      simp [symIdx, ht, ih.mpr hts]

lemma symIdx_lt_length (l : List Symbol) (s : Symbol) (i : Nat)
    (h : symIdx l s = some i) : i < l.length := by
  induction l generalizing i with
  | nil => simp [symIdx] at h
  | cons t ts ih =>
    by_cases ht : t = s
    · subst ht
      simp [symIdx] at h
      simp only [List.length_cons]
      omega
    · cases hi : symIdx ts s with
      | none => simp [symIdx, ht, hi] at h
      | some k =>
        simp [symIdx, ht, hi] at h
        have := ih k hi
        simp only [List.length_cons]
        omega

lemma symIdx_get (l : List Symbol) (s : Symbol) (i : Nat)
    (h : symIdx l s = some i) : l.get ⟨i, symIdx_lt_length l s i h⟩ = s := by
  induction l generalizing i with
  | nil => simp [symIdx] at h
  | cons t ts ih =>
    by_cases ht : t = s
    · subst ht
      simp [symIdx] at h
      subst h
      rfl
    · cases hi : symIdx ts s with
      | none => simp [symIdx, ht, hi] at h
      | some k =>
        simp [symIdx, ht, hi] at h
        subst h
        simpa using ih k hi

lemma symIdx_inj (l : List Symbol) (s s' : Symbol) (i : Nat)
    (h1 : symIdx l s = some i) (h2 : symIdx l s' = some i) : s = s' := by
  have g1 := symIdx_get l s i h1
  have g2 := symIdx_get l s' i h2
  rw [← g1, ← g2]

lemma symIdx_append_some (l : List Symbol) (s t : Symbol) (i : Nat)
    (h : symIdx l s = some i) : symIdx (l ++ [t]) s = some i := by
  induction l generalizing i with
  | nil => simp [symIdx] at h
  | cons u us ih =>
    by_cases hu : u = s
    · subst hu
      simp [symIdx] at h ⊢
      exact h
    · cases hi : symIdx us s with
      | none => simp [symIdx, hu, hi] at h
      | some k =>
        simp [symIdx, hu, hi] at h
        simp [symIdx, hu, ih k hi]
        exact h

lemma symIdx_append_self (l : List Symbol) (s : Symbol)
    (h : symIdx l s = none) : symIdx (l ++ [s]) s = some l.length := by
  induction l with
  | nil => simp [symIdx]
  | cons u us ih =>
    by_cases hu : u = s
    · subst hu
      simp [symIdx] at h
    · cases hi : symIdx us s with
      | none => simp [symIdx, hu, ih hi]
      | some k => simp [symIdx, hu, hi] at h

lemma symIdx_append_ne (l : List Symbol) (s t : Symbol)
    (h : symIdx l s = none) (hne : s ≠ t) : symIdx (l ++ [t]) s = none := by
  rw [symIdx_eq_none_iff] at h ⊢
  simp [h, hne]

end Data

namespace Data

/-- The inclusive cost recorded for a symbol in the results: the cost
vector at its entry id, or the zero vector when the symbol has no entry. -/
def inclCostOf (r : CallerCalleeResults) (s : Symbol) : ItemCost :=
  match symIdx r.syms s with
  | some i => r.inclusiveCosts.table i
  | none => zeroCost r.inclusiveCosts.numTypes

/-- Cost-table slots at or beyond the number of entries are still zero:
true of empty results and preserved by the builder, since every id ever
written is an assigned entry id. -/
def ZeroAboveCC (r : CallerCalleeResults) : Prop :=
  ∀ j, r.syms.length ≤ j →
    r.inclusiveCosts.table j = zeroCost r.inclusiveCosts.numTypes

lemma entryId_of_some (r : CallerCalleeResults) (s : Symbol) (i : Nat)
    (h : symIdx r.syms s = some i) : r.entryId s = (i, r) := by
  simp [CallerCalleeResults.entryId, h]

lemma entryId_of_none (r : CallerCalleeResults) (s : Symbol)
    (h : symIdx r.syms s = none) :
    r.entryId s = (r.syms.length, { r with syms := r.syms ++ [s] }) := by
  simp [CallerCalleeResults.entryId, h]

lemma ccStep_syms (diff : ItemCost) (s : Symbol) (rest : List Symbol)
    (last : Option Symbol) (g : List Symbol) (cg : List (Symbol × Symbol))
    (r : CallerCalleeResults) :
    (ccStep diff s rest last g cg r).syms = (r.entryId s).2.syms := by
  unfold ccStep
  rcases last with _ | l <;>
    cases hsi : symIdx r.syms s <;> by_cases hg : s ∈ g <;>
    by_cases he : rest.isEmpty <;>
    by_cases hcg : ∀ ll, (s, ll) ∈ cg <;>
    simp [CallerCalleeResults.entryId, hsi, hg, he] <;>
    split <;> rfl

lemma ccStep_incl_guarded (diff : ItemCost) (s : Symbol) (rest : List Symbol)
    (last : Option Symbol) (g : List Symbol) (cg : List (Symbol × Symbol))
    (r : CallerCalleeResults) (hg : s ∈ g) :
    (ccStep diff s rest last g cg r).inclusiveCosts = r.inclusiveCosts := by
  unfold ccStep
  rcases last with _ | l <;>
    cases hsi : symIdx r.syms s <;> by_cases he : rest.isEmpty <;>
    simp [CallerCalleeResults.entryId, hsi, hg, he] <;>
    split <;> rfl

lemma ccStep_incl_unguarded (diff : ItemCost) (s : Symbol)
    (rest : List Symbol) (last : Option Symbol) (g : List Symbol)
    (cg : List (Symbol × Symbol)) (r : CallerCalleeResults) (hg : s ∉ g) :
    (ccStep diff s rest last g cg r).inclusiveCosts =
      r.inclusiveCosts.add (r.entryId s).1 diff := by
  unfold ccStep
  rcases last with _ | l <;>
    cases hsi : symIdx r.syms s <;> by_cases he : rest.isEmpty <;>
    simp [CallerCalleeResults.entryId, hsi, hg, he] <;>
    split <;> rfl

end Data

namespace Data

lemma ccStep_numTypes (diff : ItemCost) (s : Symbol) (rest : List Symbol)
    (last : Option Symbol) (g : List Symbol) (cg : List (Symbol × Symbol))
    (r : CallerCalleeResults) :
    (ccStep diff s rest last g cg r).inclusiveCosts.numTypes =
      r.inclusiveCosts.numTypes := by
  by_cases hg : s ∈ g
  · rw [ccStep_incl_guarded diff s rest last g cg r hg]
  · rw [ccStep_incl_unguarded diff s rest last g cg r hg, Costs.numTypes_add]

lemma entryId_syms_of_some (r : CallerCalleeResults) (s : Symbol) (i : Nat)
    (h : symIdx r.syms s = some i) : (r.entryId s).2.syms = r.syms := by
  rw [entryId_of_some r s i h]

lemma entryId_syms_of_none (r : CallerCalleeResults) (s : Symbol)
    (h : symIdx r.syms s = none) : (r.entryId s).2.syms = r.syms ++ [s] := by
  rw [entryId_of_none r s h]

lemma ccStep_zeroAbove (diff : ItemCost) (s : Symbol) (rest : List Symbol)
    (last : Option Symbol) (g : List Symbol) (cg : List (Symbol × Symbol))
    (r : CallerCalleeResults) (hz : ZeroAboveCC r) :
    ZeroAboveCC (ccStep diff s rest last g cg r) := by
  intro j hj
  rw [ccStep_syms] at hj
  rw [ccStep_numTypes]
  by_cases hg : s ∈ g
  · rw [ccStep_incl_guarded diff s rest last g cg r hg]
    cases hsi : symIdx r.syms s with
    | some i =>
      rw [entryId_syms_of_some r s i hsi] at hj
      exact hz j hj
    | none =>
      rw [entryId_syms_of_none r s hsi] at hj
      simp at hj
      exact hz j (by omega)
  · rw [ccStep_incl_unguarded diff s rest last g cg r hg]
    cases hsi : symIdx r.syms s with
    | some i =>
      rw [entryId_syms_of_some r s i hsi] at hj
      have hi : i < r.syms.length := symIdx_lt_length r.syms s i hsi
      rw [entryId_of_some r s i hsi]
      rw [Costs.table_add_ne r.inclusiveCosts i j diff (by omega)]
      exact hz j hj
    | none =>
      rw [entryId_syms_of_none r s hsi] at hj
      simp at hj
      rw [entryId_of_none r s hsi]
      rw [Costs.table_add_ne r.inclusiveCosts r.syms.length j diff (by omega)]
      exact hz j (by omega)

lemma ccStep_inclCostOf_self_unguarded (diff : ItemCost) (s : Symbol)
    (rest : List Symbol) (last : Option Symbol) (g : List Symbol)
    (cg : List (Symbol × Symbol)) (r : CallerCalleeResults)
    (hg : s ∉ g) (hz : ZeroAboveCC r) :
    inclCostOf (ccStep diff s rest last g cg r) s =
      addCost (inclCostOf r s) diff := by
  unfold inclCostOf
  rw [ccStep_syms, ccStep_incl_unguarded diff s rest last g cg r hg]
  cases hsi : symIdx r.syms s with
  | some i =>
    simp only [entryId_of_some r s i hsi, hsi, Costs.table_add_self]
  | none =>
    simp only [entryId_of_none r s hsi, hsi]
    rw [symIdx_append_self r.syms s hsi]
    simp only [Costs.table_add_self, hz r.syms.length (le_refl _)]

lemma ccStep_inclCostOf_self_guarded (diff : ItemCost) (s : Symbol)
    (rest : List Symbol) (last : Option Symbol) (g : List Symbol)
    (cg : List (Symbol × Symbol)) (r : CallerCalleeResults)
    (hg : s ∈ g) (hz : ZeroAboveCC r) :
    inclCostOf (ccStep diff s rest last g cg r) s = inclCostOf r s := by
  unfold inclCostOf
  rw [ccStep_syms, ccStep_incl_guarded diff s rest last g cg r hg]
  cases hsi : symIdx r.syms s with
  | some i =>
    simp only [entryId_of_some r s i hsi, hsi]
  | none =>
    simp only [entryId_of_none r s hsi, hsi]
    rw [symIdx_append_self r.syms s hsi]
    simp only [hz r.syms.length (le_refl _)]

lemma ccStep_inclCostOf_other (diff : ItemCost) (s : Symbol)
    (rest : List Symbol) (last : Option Symbol) (g : List Symbol)
    (cg : List (Symbol × Symbol)) (r : CallerCalleeResults)
    (s' : Symbol) (hne : s' ≠ s) :
    inclCostOf (ccStep diff s rest last g cg r) s' = inclCostOf r s' := by
  have hincl :
      (ccStep diff s rest last g cg r).inclusiveCosts = r.inclusiveCosts ∨
      (ccStep diff s rest last g cg r).inclusiveCosts =
        r.inclusiveCosts.add (r.entryId s).1 diff := by
    by_cases hg : s ∈ g
    · exact Or.inl (ccStep_incl_guarded diff s rest last g cg r hg)
    · exact Or.inr (ccStep_incl_unguarded diff s rest last g cg r hg)
  unfold inclCostOf
  rw [ccStep_syms]
  cases hsi : symIdx r.syms s with
  | some i =>
    rw [entryId_syms_of_some r s i hsi]
    have hid : (r.entryId s).1 = i := by rw [entryId_of_some r s i hsi]
    cases hsi' : symIdx r.syms s' with
    | some i' =>
      dsimp only
      have hii : i' ≠ i := fun hh =>
        hne (symIdx_inj r.syms s' s i (hh ▸ hsi') hsi)
      rcases hincl with h | h
      · rw [h]
      · rw [h, hid, Costs.table_add_ne r.inclusiveCosts i i' diff hii]
    | none =>
      dsimp only
      rcases hincl with h | h
      · rw [h]
      · rw [h, Costs.numTypes_add]
  | none =>
    rw [entryId_syms_of_none r s hsi]
    have hid : (r.entryId s).1 = r.syms.length := by
      rw [entryId_of_none r s hsi]
    cases hsi' : symIdx r.syms s' with
    | some i' =>
      rw [symIdx_append_some r.syms s' s i' hsi']
      dsimp only
      have hi' : i' < r.syms.length := symIdx_lt_length r.syms s' i' hsi'
      rcases hincl with h | h
      · rw [h]
      · rw [h, hid,
          Costs.table_add_ne r.inclusiveCosts r.syms.length i' diff (by omega)]
    | none =>
      rw [symIdx_append_ne r.syms s' s hsi' hne]
      dsimp only
      rcases hincl with h | h
      · rw [h]
      · rw [h, Costs.numTypes_add]

end Data

namespace Data

/-- The per-walk symbol guard makes inclusive crediting idempotent: a
chain symbol not yet in the guard is credited exactly once by the whole
walk, and a guarded (or absent) symbol is not credited at all. -/
lemma ccWalk_incl_once (diff : ItemCost) (cs : List Symbol) :
    ∀ (last : Option Symbol) (g : List Symbol) (cg : List (Symbol × Symbol))
      (r : CallerCalleeResults), ZeroAboveCC r →
      ∀ s : Symbol,
        (s ∈ cs → s ∉ g →
          inclCostOf (ccWalk diff cs last g cg r) s =
            addCost (inclCostOf r s) diff) ∧
        ((s ∉ cs ∨ s ∈ g) →
          inclCostOf (ccWalk diff cs last g cg r) s = inclCostOf r s) := by
  induction cs with
  | nil =>
    intro last g cg r hz s
    exact ⟨fun h _ => absurd h (List.not_mem_nil s), fun _ => rfl⟩
  | cons s0 rest ih =>
    intro last g cg r hz s
    rw [ccWalk_cons]
    have hz' : ZeroAboveCC (ccStep diff s0 rest last g cg r) :=
      ccStep_zeroAbove diff s0 rest last g cg r hz
    obtain ⟨ih1, ih2⟩ := ih (some s0) (ccStepG s0 g) (ccStepCG s0 last cg)
      (ccStep diff s0 rest last g cg r) hz' s
    by_cases hss : s = s0
    · subst hss
      by_cases hg : s ∈ g
      · have hstep := ccStep_inclCostOf_self_guarded diff s rest last g cg r hg hz
        have hginv : s ∈ ccStepG s g := by simp [ccStepG, hg]
        refine ⟨fun _ hng => absurd hg hng, fun _ => ?_⟩
        rw [ih2 (Or.inr hginv), hstep]
      · have hstep := ccStep_inclCostOf_self_unguarded diff s rest last g cg r hg hz
        have hginv : s ∈ ccStepG s g := by simp [ccStepG, hg]
        constructor
        · intro _ _
          rw [ih2 (Or.inr hginv), hstep]
        · intro hor
          rcases hor with hnc | hgmem
          · exact absurd (List.mem_cons_self s rest) hnc
          · exact absurd hgmem hg
    · have hstep := ccStep_inclCostOf_other diff s0 rest last g cg r s hss
      have hgstep : s ∈ ccStepG s0 g ↔ s ∈ g := by
        unfold ccStepG
        by_cases hg0 : s0 ∈ g
        · simp [hg0]
        · simp [hg0, List.mem_cons, hss]
      constructor
      · intro hcs hng
        have hcs' : s ∈ rest := by
          rcases List.mem_cons.mp hcs with hh | hh
          · exact absurd hh hss
          · exact hh
        rw [ih1 hcs' (fun hh => hng (hgstep.mp hh)), hstep]
      · intro hor
        have hor' : s ∉ rest ∨ s ∈ ccStepG s0 g := by
          rcases hor with hnc | hgm
          · exact Or.inl (fun hh => hnc (List.mem_cons_of_mem s0 hh))
          · exact Or.inr (hgstep.mpr hgm)
        rw [ih2 hor', hstep]

end Data

/-- C3: within one caller-callee walk for a single leaf contribution
`diff`, a chain symbol's entry has `diff` added to its inclusive cost
exactly once — also when the symbol occurs several times in the chain
(recursive stacks), since the per-walk `recursionGuard` blocks repeated
crediting.  Stated for any results whose cost slots beyond the assigned
entry ids are still zero, as the builder maintains. -/
theorem claim_C3_inclusive_once_per_walk (diff : Data.ItemCost)
    (cs : List Data.Symbol) (r : Data.CallerCalleeResults)
    (hz : Data.ZeroAboveCC r) (s : Data.Symbol) (hs : s ∈ cs) :
    Data.inclCostOf (Data.ccWalk diff cs none [] [] r) s =
      Data.addCost (Data.inclCostOf r s) diff :=
  (Data.ccWalk_incl_once diff cs none [] [] r hz s).1 hs
    (List.not_mem_nil s)

/-- Witness for C3 on the recursive chain `A, B, A`: the inclusive cost
of `A` is credited once, not twice. -/
theorem claim_C3_inclusive_once_per_walk_witness :
    Data.ZeroAboveCC (Data.emptyCC 1) ∧ exA ∈ [exA, exB, exA] ∧
      Data.inclCostOf (Data.ccWalk [2] [exA, exB, exA] none [] []
        (Data.emptyCC 1)) exA =
        Data.addCost (Data.inclCostOf (Data.emptyCC 1) exA) [2] :=
  ⟨fun _ _ => rfl, by decide,
   claim_C3_inclusive_once_per_walk [2] [exA, exB, exA] (Data.emptyCC 1)
     (fun _ _ => rfl) exA (by decide)⟩

/-! ## C9: the nonzero-sum gate on leaf contributions -/

namespace Data

lemma subCost_zero_right (a : ItemCost) (n : Nat) (h : a.length = n) :
    subCost a (zeroCost n) = a := by
  subst h
  induction a with
  | nil => rfl
  | cons x xs ih =>
    simp only [subCost, zeroCost, List.length_cons, List.replicate_succ,
      List.zipWith_cons_cons, Int.sub_zero] at ih ⊢
    simp [ih]

/-- A bottom-up input with a single first-level child: one row carrying
the whole cost vector `v` (one cost category per component of `v`). -/
def singletonBU (s : Symbol) (v : ItemCost) : BottomUpResults :=
  ⟨.node 100 ⟨"", ""⟩ [.node 0 s []],
   ⟨v.length, fun i => if i = 0 then v else zeroCost v.length⟩⟩

end Data

/-- C9: in both builders a child's leaf contribution is processed exactly
when the components of `diff = rowCost - childCost` sum to a nonzero
value.  On a one-row input with cost vector `v` (so `diff = v`): when the
components of `v` cancel to a zero total (e.g. `[5, -5]`), no top-down
node is created and no self/inclusive cost, caller-callee entry, entry
cost or edge cost is attributed anywhere; when the total is nonzero, the
row is processed and `v` lands on its node and entry. -/
theorem claim_C9_diff_sum_gate (s : Data.Symbol) (v : Data.ItemCost) :
    (Data.sumCost v = 0 →
      (Data.TopDownResults.fromBottomUp (Data.singletonBU s v)
          false).root.children = [] ∧
      (∀ i, (Data.TopDownResults.fromBottomUp (Data.singletonBU s v)
          false).selfCosts.table i = Data.zeroCost v.length) ∧
      (∀ i, (Data.TopDownResults.fromBottomUp (Data.singletonBU s v)
          false).inclusiveCosts.table i = Data.zeroCost v.length) ∧
      (Data.callerCalleesFromBottomUpData (Data.singletonBU s v)).syms = [] ∧
      (∀ a b, (Data.callerCalleesFromBottomUpData
          (Data.singletonBU s v)).callees a b = Data.zeroCost v.length) ∧
      (∀ a b, (Data.callerCalleesFromBottomUpData
          (Data.singletonBU s v)).callers a b = Data.zeroCost v.length) ∧
      (∀ i, (Data.callerCalleesFromBottomUpData
          (Data.singletonBU s v)).inclusiveCosts.table i =
            Data.zeroCost v.length) ∧
      (∀ i, (Data.callerCalleesFromBottomUpData
          (Data.singletonBU s v)).selfCosts.table i =
            Data.zeroCost v.length)) ∧
    (Data.sumCost v ≠ 0 →
      (Data.TopDownResults.fromBottomUp (Data.singletonBU s v)
          false).root.children = [.node 0 s []] ∧
      (Data.TopDownResults.fromBottomUp (Data.singletonBU s v)
          false).selfCosts.table 0 = v ∧
      (Data.TopDownResults.fromBottomUp (Data.singletonBU s v)
          false).inclusiveCosts.table 0 = v ∧
      (Data.callerCalleesFromBottomUpData (Data.singletonBU s v)).syms = [s] ∧
      (Data.callerCalleesFromBottomUpData
          (Data.singletonBU s v)).inclusiveCosts.table 0 = v ∧
      (Data.callerCalleesFromBottomUpData
          (Data.singletonBU s v)).selfCosts.table 0 = v) := by
  have hsub : Data.subCost v (Data.zeroCost v.length) = v :=
    Data.subCost_zero_right v v.length rfl
  have hadd : Data.addCost (Data.zeroCost v.length) v = v :=
    Data.addCost_zero_left v v.length rfl
  constructor
  · intro h0
    refine ⟨?_, ?_, ?_, ?_, ?_, ?_, ?_, ?_⟩ <;>
      simp [Data.TopDownResults.fromBottomUp, Data.buildTopDownResult,
        Data.callerCalleesFromBottomUpData, Data.buildCallerCalleeResult,
        Data.singletonBU, Data.emptyCC, Data.initializeCostsFrom,
        Data.Costs.itemCost, Data.BottomUp.children, Data.BottomUp.id,
        Data.BottomUp.symbol, Data.TopDown.children, hsub, h0]
  · intro h1
    refine ⟨?_, ?_, ?_, ?_, ?_, ?_⟩ <;>
      simp [Data.TopDownResults.fromBottomUp, Data.buildTopDownResult,
        Data.callerCalleesFromBottomUpData, Data.buildCallerCalleeResult,
        Data.singletonBU, Data.emptyCC, Data.initializeCostsFrom,
        Data.Costs.itemCost, Data.BottomUp.children, Data.BottomUp.id,
        Data.BottomUp.symbol, hsub, h1, Data.walkChain, Data.ccWalk,
        Data.isLastNode, Data.Costs.add, Data.CallerCalleeResults.entryId,
        Data.symIdx, Data.TopDown.children, hadd]

/-- Witness for C9: the cancelling vector `[5, -5]` is attributed
nowhere; the vector `[1]` is processed. -/
theorem claim_C9_diff_sum_gate_witness :
    ((Data.TopDownResults.fromBottomUp (Data.singletonBU exA [5, -5])
        false).root.children = [] ∧
      (∀ i, (Data.TopDownResults.fromBottomUp (Data.singletonBU exA [5, -5])
          false).selfCosts.table i = Data.zeroCost 2) ∧
      (∀ i, (Data.TopDownResults.fromBottomUp (Data.singletonBU exA [5, -5])
          false).inclusiveCosts.table i = Data.zeroCost 2) ∧
      (Data.callerCalleesFromBottomUpData
        (Data.singletonBU exA [5, -5])).syms = [] ∧
      (∀ a b, (Data.callerCalleesFromBottomUpData
          (Data.singletonBU exA [5, -5])).callees a b = Data.zeroCost 2) ∧
      (∀ a b, (Data.callerCalleesFromBottomUpData
          (Data.singletonBU exA [5, -5])).callers a b = Data.zeroCost 2) ∧
      (∀ i, (Data.callerCalleesFromBottomUpData
          (Data.singletonBU exA [5, -5])).inclusiveCosts.table i =
            Data.zeroCost 2) ∧
      (∀ i, (Data.callerCalleesFromBottomUpData
          (Data.singletonBU exA [5, -5])).selfCosts.table i =
            Data.zeroCost 2)) ∧
    ((Data.TopDownResults.fromBottomUp (Data.singletonBU exA [1])
        false).root.children = [.node 0 exA []] ∧
      (Data.TopDownResults.fromBottomUp (Data.singletonBU exA [1])
        false).selfCosts.table 0 = [1] ∧
      (Data.TopDownResults.fromBottomUp (Data.singletonBU exA [1])
        false).inclusiveCosts.table 0 = [1] ∧
      (Data.callerCalleesFromBottomUpData
        (Data.singletonBU exA [1])).syms = [exA] ∧
      (Data.callerCalleesFromBottomUpData
        (Data.singletonBU exA [1])).inclusiveCosts.table 0 = [1] ∧
      (Data.callerCalleesFromBottomUpData
        (Data.singletonBU exA [1])).selfCosts.table 0 = [1]) :=
  ⟨(claim_C9_diff_sum_gate exA [5, -5]).1 (by decide),
   (claim_C9_diff_sum_gate exA [1]).2 (by decide)⟩

/-! ## C6: per-library costs sum to the tree self total -/

namespace Data

lemma binIdx_mem (l : List (String × Nat)) (b : String) (k : Nat)
    (h : binIdx l b = some k) : (b, k) ∈ l := by
  induction l with
  | nil => simp [binIdx] at h
  | cons p rest ih =>
    obtain ⟨pb, pk⟩ := p
    by_cases hb : pb = b
    · subst hb
      simp [binIdx] at h
      simp [h]
    · simp [binIdx, hb] at h
      exact List.mem_cons_of_mem _ (ih h)

/-- The invariant of the per-library build state: entry ids are exactly
`0 .. size-1` in order, the hash values are in range, the cost matrix is
well-formed with the right category count, and slots beyond the assigned
ids are still zero. -/
def PLInv (st : PLState) (n : Nat) : Prop :=
  st.entries.map (fun e => e.id) = List.range st.index.length ∧
  (∀ p ∈ st.index, p.2 < st.index.length) ∧
  st.costs.numTypes = n ∧ st.costs.WF ∧
  (∀ j, st.index.length ≤ j → st.costs.table j = zeroCost n)

lemma buildPerLibrary_spec (c : Costs) (hc : c.WF) :
    ∀ (forest : List TopDown) (st : PLState), PLInv st c.numTypes →
      PLInv (buildPerLibrary c forest st) c.numTypes ∧
      idsSum (buildPerLibrary c forest st).costs
          (List.range (buildPerLibrary c forest st).index.length) =
        addCost (idsSum st.costs (List.range st.index.length))
          (idsSum c (forestIds forest)) := by
  intro forest st hst
  induction forest, st using buildPerLibrary.induct c with
  | case1 st =>
    simp only [buildPerLibrary]
    refine ⟨hst, ?_⟩
    simp only [forestIds, idsSum]
    rw [addCost_zero_right _ c.numTypes]
    rw [idsSum_length st.costs hst.2.2.2.1, hst.2.2.1]
  | case2 i sy cs rest st p st2 st3 ihcs ihdup ihrest =>
    obtain ⟨hent, hmem, hnum, hwf, hzero⟩ := hst
    have hlen : (c.itemCost i).length = st.costs.numTypes := by
      rw [hnum]
      exact hc i
    have hst2 : PLInv st2 c.numTypes := by
      unfold st2 p
      cases hb : binIdx st.index sy.binary with
      | some k =>
        dsimp only
        have hk : k < st.index.length := hmem _ (binIdx_mem st.index sy.binary k hb)
        refine ⟨hent, hmem, by dsimp only; rw [Costs.numTypes_add, hnum],
          Costs.WF.add st.costs hwf k (c.itemCost i) hlen, ?_⟩
        intro j hj
        dsimp only at hj ⊢
        rw [Costs.table_add_ne st.costs k j (c.itemCost i) (by omega)]
        exact hzero j hj
      | none =>
        dsimp only
        refine ⟨?_, ?_,
          by dsimp only; rw [Costs.numTypes_add, hnum],
          Costs.WF.add st.costs hwf st.index.length (c.itemCost i) hlen, ?_⟩
        · dsimp only
          simp [hent, List.range_succ]
        · intro q hq
          dsimp only at hq ⊢
          simp only [List.length_append, List.length_cons, List.length_nil]
          rcases List.mem_append.mp hq with hq1 | hq2
          · have := hmem q hq1
            omega
          · have hq3 : q = (sy.binary, st.index.length) := by simpa using hq2
            subst hq3
            dsimp only
            omega
        · intro j hj
          dsimp only at hj ⊢
          simp only [List.length_append, List.length_cons, List.length_nil] at hj
          rw [Costs.table_add_ne st.costs st.index.length j (c.itemCost i) (by omega)]
          exact hzero j (by omega)
    have hsum2 : idsSum st2.costs (List.range st2.index.length) =
        addCost (idsSum st.costs (List.range st.index.length)) (c.itemCost i) := by
      unfold st2 p
      cases hb : binIdx st.index sy.binary with
      | some k =>
        dsimp only
        have hk : k < st.index.length := hmem _ (binIdx_mem st.index sy.binary k hb)
        exact idsSum_add_mem st.costs k (c.itemCost i) (List.range st.index.length)
          (List.nodup_range _) (List.mem_range.mpr hk)

      | none =>
        dsimp only
        simp only [List.length_append, List.length_cons, List.length_nil]
        rw [List.range_succ]
        have hwf2 : (st.costs.add st.index.length (c.itemCost i)).WF :=
          Costs.WF.add st.costs hwf st.index.length (c.itemCost i) hlen
        rw [idsSum_append _ hwf2]
        rw [idsSum_add_notMem st.costs st.index.length (c.itemCost i)
          (List.range st.index.length) (by simp)]
        have htbl : (st.costs.add st.index.length (c.itemCost i)).table st.index.length =
            addCost (st.costs.table st.index.length) (c.itemCost i) :=
          Costs.table_add_self st.costs st.index.length (c.itemCost i)
        simp only [idsSum, htbl, Costs.numTypes_add]
        rw [hzero st.index.length (le_refl _)]
        rw [addCost_zero_left (c.itemCost i) c.numTypes (by rw [← hnum]; exact hlen)]
        rw [addCost_zero_right (c.itemCost i) st.costs.numTypes hlen]
    obtain ⟨hst3, hsum3⟩ := ihcs hst2
    have hst3' : PLInv st3 c.numTypes := hst3
    have hsum3' : idsSum st3.costs (List.range st3.index.length) =
        addCost (idsSum st2.costs (List.range st2.index.length))
          (idsSum c (forestIds cs)) := hsum3
    obtain ⟨hfin, hsum4⟩ := ihrest hst3'
    have hfin' : PLInv (buildPerLibrary c rest st3) c.numTypes := hfin
    have hsum4' : idsSum (buildPerLibrary c rest st3).costs
        (List.range (buildPerLibrary c rest st3).index.length) =
        addCost (idsSum st3.costs (List.range st3.index.length))
          (idsSum c (forestIds rest)) := hsum4
    have key : idsSum (buildPerLibrary c rest st3).costs
        (List.range (buildPerLibrary c rest st3).index.length) =
        addCost (idsSum st.costs (List.range st.index.length))
          (idsSum c (forestIds (TopDown.node i sy cs :: rest))) := by
      rw [hsum4', hsum3', hsum2]
      simp only [forestIds, idsSum]
      rw [idsSum_append c hc]
      rw [addCost_assoc, addCost_assoc]
      rfl
    simp only [buildPerLibrary]
    exact ⟨hfin', key⟩

end Data

namespace Data

lemma lookupCost_mem (entries : List (Nat × ItemCost)) (i : Nat) (v : ItemCost)
    (h : lookupCost entries i = some v) : (i, v) ∈ entries := by
  induction entries with
  | nil => simp [lookupCost] at h
  | cons p rest ih =>
    obtain ⟨k, w⟩ := p
    by_cases hk : i = k
    · subst hk
      simp [lookupCost] at h
      simp [h]
    · simp [lookupCost, hk] at h
      exact List.mem_cons_of_mem _ (ih h)

lemma mkCosts_WF (n : Nat) (entries : List (Nat × ItemCost))
    (h : ∀ p ∈ entries, p.2.length = n) : (mkCosts n entries).WF := by
  intro i
  unfold mkCosts
  dsimp only
  cases hl : lookupCost entries i with
  | none => simp [length_zeroCost]
  | some v =>
    simp only [Option.getD_some]
    exact h (i, v) (lookupCost_mem entries i v hl)

end Data

/-- C6: the per-library aggregator adds each top-down node's self cost to
the flat library entry keyed by the node's binary, so the elementwise sum
of the per-library cost vectors over all library entries equals the sum of
self costs over all nodes of the top-down tree it was built from. -/
theorem claim_C6_perlibrary_total (td : Data.TopDownResults)
    (h : td.selfCosts.WF) :
    Data.idsSum (Data.PerLibraryResults.fromTopDown td).costs
        ((Data.PerLibraryResults.fromTopDown td).entries.map (fun e => e.id)) =
      Data.idsSum td.selfCosts (Data.forestIds td.root.children) := by
  have hinv0 : Data.PLInv ⟨[], [], Data.initializeCostsFrom td.selfCosts⟩
      td.selfCosts.numTypes := by
    refine ⟨rfl, ?_, rfl, ?_, ?_⟩
    · intro p hp
      simp at hp
    · intro i
      simp [Data.initializeCostsFrom, Data.length_zeroCost]
    · intro j _
      rfl
  obtain ⟨hinv, hsum⟩ := Data.buildPerLibrary_spec td.selfCosts h
    td.root.children ⟨[], [], Data.initializeCostsFrom td.selfCosts⟩ hinv0
  unfold Data.PerLibraryResults.fromTopDown
  dsimp only
  rw [hinv.1, hsum]
  simp only [List.length_nil, List.range_zero, Data.idsSum,
    Data.initializeCostsFrom]
  rw [Data.addCost_zero_left _ td.selfCosts.numTypes
    (Data.idsSum_length td.selfCosts h _)]

/-- Witness for C6 on a concrete two-node tree spanning two binaries. -/
theorem claim_C6_perlibrary_total_witness :
    (Data.mkCosts 1 [(0, [3]), (1, [4])]).WF ∧
      Data.idsSum
        (Data.PerLibraryResults.fromTopDown
          ⟨.node 0 ⟨"", ""⟩ [.node 0 exA [.node 1 exB []]],
           Data.mkCosts 1 [(0, [3]), (1, [4])],
           Data.mkCosts 1 [(0, [7]), (1, [7])]⟩).costs
        ((Data.PerLibraryResults.fromTopDown
          ⟨.node 0 ⟨"", ""⟩ [.node 0 exA [.node 1 exB []]],
           Data.mkCosts 1 [(0, [3]), (1, [4])],
           Data.mkCosts 1 [(0, [7]), (1, [7])]⟩).entries.map (fun e => e.id)) =
      Data.idsSum (Data.mkCosts 1 [(0, [3]), (1, [4])])
        (Data.forestIds [.node 0 exA [.node 1 exB []]]) :=
  ⟨Data.mkCosts_WF 1 [(0, [3]), (1, [4])] (by decide),
   claim_C6_perlibrary_total
     ⟨.node 0 ⟨"", ""⟩ [.node 0 exA [.node 1 exB []]],
      Data.mkCosts 1 [(0, [3]), (1, [4])],
      Data.mkCosts 1 [(0, [7]), (1, [7])]⟩
     (Data.mkCosts_WF 1 [(0, [3]), (1, [4])] (by decide))⟩

/-! ## C1: cost conservation for the top-down builder -/

namespace Data

/-- Componentwise comparison of two cost vectors of equal length. -/
def costLeB : ItemCost → ItemCost → Bool
  | [], [] => true
  | x :: xs, y :: ys => decide (x ≤ y) && costLeB xs ys
  | _, _ => false

/-- Well-formedness of the bottom-up rows: every row's cost dominates the
sum of its children's costs componentwise — true of real sampled data,
where a stack's cost is accumulated on every node of its chain. -/
def monoRowsB (c : Costs) : List BottomUp → Bool
  | [] => true
  | .node i _ cs :: rest =>
    costLeB (sumRowCosts c cs) (c.table i) && monoRowsB c cs && monoRowsB c rest

lemma costLeB_length (a b : ItemCost) (h : costLeB a b = true) :
    a.length = b.length := by
  induction a generalizing b with
  | nil => cases b with
    | nil => rfl
    | cons y ys => simp [costLeB] at h
  | cons x xs ih =>
    cases b with
    | nil => simp [costLeB] at h
    | cons y ys =>
      simp only [costLeB, Bool.and_eq_true, decide_eq_true_eq] at h
      simp [ih ys h.2]

lemma costLeB_sub_nonneg (a b : ItemCost) (h : costLeB a b = true) :
    NonnegCost (subCost b a) := by
  induction a generalizing b with
  | nil =>
    cases b with
    | nil => intro x hx; simp [subCost] at hx
    | cons y ys => simp [costLeB] at h
  | cons x xs ih =>
    cases b with
    | nil => simp [costLeB] at h
    | cons y ys =>
      simp only [costLeB, Bool.and_eq_true, decide_eq_true_eq] at h
      intro z hz
      simp only [subCost, List.zipWith_cons_cons] at hz
      rcases List.mem_cons.mp hz with rfl | hz2
      · omega
      · exact ih ys h.2 z hz2

lemma sumRowCosts_length (c : Costs) (hc : c.WF) (rows : List BottomUp) :
    (sumRowCosts c rows).length = c.numTypes := by
  induction rows with
  | nil => simp [sumRowCosts, length_zeroCost]
  | cons row rest ih =>
    simp [sumRowCosts, length_addCost, ih, Costs.itemCost, hc row.id]

/-- The sum of the leaf contributions `diff = rowCost - childCost` over
all rows of a bottom-up forest, at every depth. -/
def leafContribSum (c : Costs) : List BottomUp → ItemCost
  | [] => zeroCost c.numTypes
  | .node i _ cs :: rest =>
    addCost (subCost (c.itemCost i) (sumRowCosts c cs))
      (addCost (leafContribSum c cs) (leafContribSum c rest))

/-- Telescoping: the leaf contributions of a forest sum to the forest's
own row costs. -/
lemma leafContribSum_eq (c : Costs) (hc : c.WF) :
    ∀ rows : List BottomUp, leafContribSum c rows = sumRowCosts c rows := by
  intro rows
  induction rows using leafContribSum.induct c with
  | case1 => simp [leafContribSum, sumRowCosts]
  | case2 i sy cs rest ih1 ih2 =>
    simp only [leafContribSum, sumRowCosts, BottomUp.id, ih1, ih2]
    rw [← addCost_assoc]
    rw [addCost_sub_cancel (c.itemCost i) (sumRowCosts c cs)
      (by rw [Costs.itemCost, hc i, sumRowCosts_length c hc])]

/-- The `totalCost` returned by the top-down builder is the row-cost sum
of the rows it visited, independent of the builder state. -/
lemma buildTopDownResult_total (c : Costs) (skip : Bool) :
    ∀ (rows : List BottomUp) (anc : List Symbol) (st : TDState),
      (buildTopDownResult c skip rows anc st).1 = sumRowCosts c rows := by
  intro rows anc st
  induction rows, anc, st using buildTopDownResult.induct c skip with
  | case1 anc st => simp [buildTopDownResult, sumRowCosts]
  | case2 i sy cs rest anc st rc childCost rowCost diff st2 ih1 ih2 =>
    simp only [buildTopDownResult, sumRowCosts, BottomUp.id]
    exact congrArg (fun x => addCost (c.itemCost i) x) ih2

end Data

namespace Data

lemma idsSum_congr (c₁ c₂ : Costs) (hn : c₁.numTypes = c₂.numTypes)
    (l : List Nat) (h : ∀ j ∈ l, c₁.table j = c₂.table j) :
    idsSum c₁ l = idsSum c₂ l := by
  induction l with
  | nil => simp [idsSum, hn]
  | cons j rest ih =>
    simp only [idsSum]
    rw [h j (List.mem_cons_self j rest),
      ih (fun k hk => h k (List.mem_cons_of_mem j hk))]

lemma forestIds_cons (i : Nat) (sy : Symbol) (cs rest : List TopDown) :
    forestIds (TopDown.node i sy cs :: rest) =
      i :: (forestIds cs ++ forestIds rest) := by
  simp [forestIds]

lemma addCost_shuffle (t c s d : ItemCost) :
    addCost t (addCost (addCost c d) s) =
      addCost (addCost t (addCost c s)) d := by
  rw [addCost_assoc c d s, addCost_comm d s, ← addCost_assoc c s d,
    ← addCost_assoc t (addCost c s) d]

lemma addCost_shuffle2 (t c s d : ItemCost) :
    addCost t (addCost c (addCost s d)) =
      addCost (addCost t (addCost c s)) d := by
  rw [← addCost_assoc c s d, ← addCost_assoc t (addCost c s) d]

/-- The invariants of the forest, the self cost matrix and the id counter
that the top-down builder maintains: distinct node ids below the counter,
well-formed costs of the right width, zero cost slots at and beyond the
counter. -/
structure TDSelfInv (n : Nat) (f : List TopDown) (self : Costs)
    (mx : Nat) : Prop where
  nodup : (forestIds f).Nodup
  lt : ∀ j ∈ forestIds f, j < mx
  numTypes : self.numTypes = n
  wf : self.WF
  zeroAbove : ∀ j, mx ≤ j → self.table j = zeroCost n

/-- What one parent-chain walk does to the self costs: it preserves the
invariants, only grows the forest (new ids at or above the old counter),
touches no self cost outside the final forest, and increases the self-cost
sum over the forest by exactly `diff`. -/
lemma walkChain_self_spec (skip : Bool) (diff : ItemCost) (n : Nat)
    (hdlen : diff.length = n) :
    ∀ (chain : List Symbol) (f : List TopDown) (incl self : Costs) (mx : Nat),
      chain ≠ [] → TDSelfInv n f self mx →
      TDSelfInv n (walkChain skip diff chain f incl self mx).1
          (walkChain skip diff chain f incl self mx).2.2.1
          (walkChain skip diff chain f incl self mx).2.2.2 ∧
      mx ≤ (walkChain skip diff chain f incl self mx).2.2.2 ∧
      (∀ j ∈ forestIds (walkChain skip diff chain f incl self mx).1,
        j ∈ forestIds f ∨ mx ≤ j) ∧
      (∀ j ∈ forestIds f,
        j ∈ forestIds (walkChain skip diff chain f incl self mx).1) ∧
      (∀ j, j ∉ forestIds (walkChain skip diff chain f incl self mx).1 →
        (walkChain skip diff chain f incl self mx).2.2.1.table j =
          self.table j) ∧
      idsSum (walkChain skip diff chain f incl self mx).2.2.1
          (forestIds (walkChain skip diff chain f incl self mx).1) =
        addCost (idsSum self (forestIds f)) diff := by
  intro chain f incl self mx hch hinv
  induction chain, f, incl, self, mx using walkChain.induct skip diff with
  | case1 f incl self mx => exact absurd rfl hch
  | case2 s rest incl self mx hlast =>
    obtain ⟨hnodup, hlt, hnum, hwf0, hzero⟩ := hinv
    simp only [walkChain, hlast, if_true]
    have hne : (self.add mx diff).numTypes = n := by
      rw [Costs.numTypes_add, hnum]
    have hwf : (self.add mx diff).WF :=
      Costs.WF.add self hwf0 mx diff (by rw [hnum]; exact hdlen)
    have hfor : forestIds [TopDown.node mx s []] = [mx] := by
      simp [forestIds]
    refine ⟨⟨?_, ?_, hne, hwf, ?_⟩, ?_, ?_, ?_, ?_, ?_⟩
    · rw [hfor]; exact List.nodup_singleton mx
    · rw [hfor]; intro j hj; simp at hj; omega
    · intro j hj
      rw [Costs.table_add_ne self mx j diff (by omega)]
      exact hzero j (by omega)
    · omega
    · rw [hfor]; intro j hj; simp at hj; omega
    · intro j hj; exact absurd hj (by simp [forestIds])
    · intro j hj
      rw [hfor] at hj
      simp at hj
      exact Costs.table_add_ne self mx j diff hj
    · rw [hfor]
      simp only [idsSum, Costs.table_add_self]
      rw [hzero mx (le_refl mx)]
      rw [addCost_zero_left diff n hdlen]
      rw [addCost_zero_right diff (self.add mx diff).numTypes
        (by rw [hne]; exact hdlen)]
      have hf0 : forestIds ([] : List TopDown) = [] := by simp [forestIds]
      rw [hf0]
      simp only [idsSum]
      rw [addCost_zero_left diff self.numTypes
        (by rw [hnum]; exact hdlen)]
  | case3 s rest incl self mx incl2 hlast ih =>
    have hrest : rest ≠ [] := walk_not_isLast_rest_ne_nil skip rest hlast
    obtain ⟨hnodup, hlt, hnum, hwf0, hzero⟩ := hinv
    have hinv' : TDSelfInv n [] self (mx + 1) :=
      ⟨by simp [forestIds], by simp [forestIds], hnum, hwf0,
       fun j hj => hzero j (by omega)⟩
    simp only [walkChain, hlast, Bool.false_eq_true, not_false_iff, if_false]
    obtain ⟨rinv, rmx, rsub, rsup, runt, rsum⟩ := ih hrest hinv'
    set rec := walkChain skip diff rest [] (incl.add mx diff) self (mx + 1)
      with hrec
    obtain ⟨rnodup, rlt, rnum, rwf, rzero⟩ := rinv
    have hfrees : ∀ j ∈ forestIds rec.1, mx + 1 ≤ j := by
      intro j hj
      rcases rsub j hj with h | h
      · simp [forestIds] at h
      · exact h
    have hfor : forestIds [TopDown.node mx s rec.1] = mx :: forestIds rec.1 := by
      rw [forestIds_cons]
      simp [forestIds]
    refine ⟨⟨?_, ?_, rnum, rwf, rzero⟩, by omega, ?_, ?_, ?_, ?_⟩
    · rw [hfor]
      exact List.nodup_cons.mpr ⟨fun hm => by have := hfrees mx hm; omega, rnodup⟩
    · rw [hfor]
      intro j hj
      rcases List.mem_cons.mp hj with rfl | hj2
      · omega
      · exact rlt j hj2
    · rw [hfor]
      intro j hj
      rcases List.mem_cons.mp hj with rfl | hj2
      · exact Or.inr (le_refl j)
      · exact Or.inr (by have := hfrees j hj2; omega)
    · intro j hj
      simp [forestIds] at hj
    · intro j hj
      rw [hfor] at hj
      have hj2 : j ∉ forestIds rec.1 := fun hm => hj (List.mem_cons_of_mem _ hm)
      exact runt j hj2
    · rw [hfor]
      simp only [idsSum]
      rw [runt mx (fun hm => by have := hfrees mx hm; omega)]
      rw [hzero mx (le_refl mx)]
      rw [rsum]
      simp only [forestIds, idsSum]
      rw [addCost_zero_left diff self.numTypes (by rw [hnum]; exact hdlen)]
      rw [addCost_zero_left diff n hdlen]
  | case4 rest i sy cs ts incl self mx hlast =>
    obtain ⟨hnodup, hlt, hnum, hwf0, hzero⟩ := hinv
    simp only [walkChain, hlast, if_true, if_pos rfl]
    have hifor : i ∈ forestIds (TopDown.node i sy cs :: ts) := by
      rw [forestIds_cons]
      exact List.mem_cons_self _ _
    have himx : i < mx := hlt i hifor
    refine ⟨⟨hnodup, hlt, by rw [Costs.numTypes_add, hnum],
      Costs.WF.add self hwf0 i diff (by rw [hnum]; exact hdlen), ?_⟩,
      le_refl mx, fun j hj => Or.inl hj, fun j hj => hj, ?_, ?_⟩
    · intro j hj
      rw [Costs.table_add_ne self i j diff (by omega)]
      exact hzero j hj
    · intro j hj
      exact Costs.table_add_ne self i j diff (fun hh => hj (hh ▸ hifor))
    · exact idsSum_add_mem self i diff _ hnodup hifor
  | case5 rest i sy cs ts incl self mx incl2 hlast ih =>
    have hrest : rest ≠ [] := walk_not_isLast_rest_ne_nil skip rest hlast
    obtain ⟨hnodup, hlt, hnum, hwf0, hzero⟩ := hinv
    rw [forestIds_cons] at hnodup hlt
    obtain ⟨hiNot, hAppNodup⟩ := List.nodup_cons.mp hnodup
    have hcsNodup : (forestIds cs).Nodup := hAppNodup.of_append_left
    have htsNodup : (forestIds ts).Nodup := hAppNodup.of_append_right
    have hdisj : (forestIds cs).Disjoint (forestIds ts) :=
      List.disjoint_of_nodup_append hAppNodup
    have hiNotCs : i ∉ forestIds cs := fun hm => hiNot (List.mem_append_left _ hm)
    have hiNotTs : i ∉ forestIds ts := fun hm => hiNot (List.mem_append_right _ hm)
    have hltCs : ∀ j ∈ forestIds cs, j < mx := fun j hj =>
      hlt j (List.mem_cons_of_mem _ (List.mem_append_left _ hj))
    have hltTs : ∀ j ∈ forestIds ts, j < mx := fun j hj =>
      hlt j (List.mem_cons_of_mem _ (List.mem_append_right _ hj))
    have himx : i < mx := hlt i (List.mem_cons_self _ _)
    have hinv' : TDSelfInv n cs self mx := ⟨hcsNodup, hltCs, hnum, hwf0, hzero⟩
    simp only [walkChain, hlast, Bool.false_eq_true, not_false_iff, if_false,
      eq_self_iff_true, if_true]
    obtain ⟨rinv, rmx, rsub, rsup, runt, rsum⟩ := ih hrest hinv'
    set rec := walkChain skip diff rest cs (incl.add i diff) self mx with hrec
    obtain ⟨rnodup, rlt, rnum, rwf, rzero⟩ := rinv
    have hRecBound : ∀ j ∈ forestIds rec.1, j ∈ forestIds cs ∨ mx ≤ j := rsub
    have hiNotRec : i ∉ forestIds rec.1 := by
      intro hm
      rcases hRecBound i hm with h | h
      · exact hiNotCs h
      · omega
    have htsNotRec : ∀ j ∈ forestIds ts, j ∉ forestIds rec.1 := by
      intro j hj hm
      rcases hRecBound j hm with h | h
      · exact hdisj h hj
      · have := hltTs j hj
        omega
    have hfor : forestIds (TopDown.node i sy rec.1 :: ts) =
        i :: (forestIds rec.1 ++ forestIds ts) := forestIds_cons i sy rec.1 ts
    refine ⟨⟨?_, ?_, rnum, rwf, rzero⟩, by omega, ?_, ?_, ?_, ?_⟩
    · rw [hfor]
      refine List.nodup_cons.mpr ⟨?_, ?_⟩
      · intro hm
        rcases List.mem_append.mp hm with h | h
        · exact hiNotRec h
        · exact hiNotTs h
      · exact List.Nodup.append rnodup htsNodup (fun a ha hb => htsNotRec a hb ha)
    · rw [hfor]
      intro j hj
      rcases List.mem_cons.mp hj with rfl | hj2
      · omega
      · rcases List.mem_append.mp hj2 with h | h
        · exact rlt j h
        · have := hltTs j h
          omega
    · rw [hfor]
      intro j hj
      rcases List.mem_cons.mp hj with rfl | hj2
      · exact Or.inl (by rw [forestIds_cons]; exact List.mem_cons_self _ _)
      · rcases List.mem_append.mp hj2 with h | h
        · rcases hRecBound j h with h2 | h2
          · exact Or.inl (by
              rw [forestIds_cons]
              exact List.mem_cons_of_mem _ (List.mem_append_left _ h2))
          · exact Or.inr h2
        · exact Or.inl (by
            rw [forestIds_cons]
            exact List.mem_cons_of_mem _ (List.mem_append_right _ h))
    · rw [forestIds_cons, hfor]
      intro j hj
      rcases List.mem_cons.mp hj with rfl | hj2
      · exact List.mem_cons_self _ _
      · rcases List.mem_append.mp hj2 with h | h
        · exact List.mem_cons_of_mem _ (List.mem_append_left _ (rsup j h))
        · exact List.mem_cons_of_mem _ (List.mem_append_right _ h)
    · intro j hj
      rw [hfor] at hj
      have hj2 : j ∉ forestIds rec.1 := fun hm =>
        hj (List.mem_cons_of_mem _ (List.mem_append_left _ hm))
      exact runt j hj2
    · rw [hfor, forestIds_cons]
      simp only [idsSum]
      rw [idsSum_append rec.2.2.1 rwf, idsSum_append self hwf0]
      rw [runt i hiNotRec]
      rw [rsum]
      rw [idsSum_congr rec.2.2.1 self (by rw [rnum, hnum]) (forestIds ts)
        (fun j hj => runt j (htsNotRec j hj))]
      exact addCost_shuffle (self.table i) (idsSum self (forestIds cs))
        (idsSum self (forestIds ts)) diff
  | case6 s rest i sy cs ts incl self mx hsne ih =>
    obtain ⟨hnodup, hlt, hnum, hwf0, hzero⟩ := hinv
    rw [forestIds_cons] at hnodup hlt
    obtain ⟨hiNot, hAppNodup⟩ := List.nodup_cons.mp hnodup
    have hcsNodup : (forestIds cs).Nodup := hAppNodup.of_append_left
    have htsNodup : (forestIds ts).Nodup := hAppNodup.of_append_right
    have hdisj : (forestIds cs).Disjoint (forestIds ts) :=
      List.disjoint_of_nodup_append hAppNodup
    have hiNotCs : i ∉ forestIds cs := fun hm => hiNot (List.mem_append_left _ hm)
    have hiNotTs : i ∉ forestIds ts := fun hm => hiNot (List.mem_append_right _ hm)
    have hltCs : ∀ j ∈ forestIds cs, j < mx := fun j hj =>
      hlt j (List.mem_cons_of_mem _ (List.mem_append_left _ hj))
    have hltTs : ∀ j ∈ forestIds ts, j < mx := fun j hj =>
      hlt j (List.mem_cons_of_mem _ (List.mem_append_right _ hj))
    have himx : i < mx := hlt i (List.mem_cons_self _ _)
    have hinv' : TDSelfInv n ts self mx := ⟨htsNodup, hltTs, hnum, hwf0, hzero⟩
    simp only [walkChain, hsne, if_false]
    obtain ⟨rinv, rmx, rsub, rsup, runt, rsum⟩ := ih hch hinv'
    set rec := walkChain skip diff (s :: rest) ts incl self mx with hrec
    obtain ⟨rnodup, rlt, rnum, rwf, rzero⟩ := rinv
    have hRecBound : ∀ j ∈ forestIds rec.1, j ∈ forestIds ts ∨ mx ≤ j := rsub
    have hiNotRec : i ∉ forestIds rec.1 := by
      intro hm
      rcases hRecBound i hm with h | h
      · exact hiNotTs h
      · omega
    have hcsNotRec : ∀ j ∈ forestIds cs, j ∉ forestIds rec.1 := by
      intro j hj hm
      rcases hRecBound j hm with h | h
      · exact hdisj hj h
      · have := hltCs j hj
        omega
    have hfor : forestIds (TopDown.node i sy cs :: rec.1) =
        i :: (forestIds cs ++ forestIds rec.1) := forestIds_cons i sy cs rec.1
    refine ⟨⟨?_, ?_, rnum, rwf, rzero⟩, by omega, ?_, ?_, ?_, ?_⟩
    · rw [hfor]
      refine List.nodup_cons.mpr ⟨?_, ?_⟩
      · intro hm
        rcases List.mem_append.mp hm with h | h
        · exact hiNotCs h
        · exact hiNotRec h
      · exact List.Nodup.append hcsNodup rnodup hcsNotRec
    · rw [hfor]
      intro j hj
      rcases List.mem_cons.mp hj with rfl | hj2
      · omega
      · rcases List.mem_append.mp hj2 with h | h
        · have := hltCs j h
          omega
        · exact rlt j h
    · rw [hfor]
      intro j hj
      rcases List.mem_cons.mp hj with rfl | hj2
      · exact Or.inl (by rw [forestIds_cons]; exact List.mem_cons_self _ _)
      · rcases List.mem_append.mp hj2 with h | h
        · exact Or.inl (by
            rw [forestIds_cons]
            exact List.mem_cons_of_mem _ (List.mem_append_left _ h))
        · rcases hRecBound j h with h2 | h2
          · exact Or.inl (by
              rw [forestIds_cons]
              exact List.mem_cons_of_mem _ (List.mem_append_right _ h2))
          · exact Or.inr h2
    · rw [forestIds_cons, hfor]
      intro j hj
      rcases List.mem_cons.mp hj with rfl | hj2
      · exact List.mem_cons_self _ _
      · rcases List.mem_append.mp hj2 with h | h
        · exact List.mem_cons_of_mem _ (List.mem_append_left _ h)
        · exact List.mem_cons_of_mem _ (List.mem_append_right _ (rsup j h))
    · intro j hj
      rw [hfor] at hj
      have hj2 : j ∉ forestIds rec.1 := fun hm =>
        hj (List.mem_cons_of_mem _ (List.mem_append_right _ hm))
      exact runt j hj2
    · rw [hfor, forestIds_cons]
      simp only [idsSum]
      rw [idsSum_append rec.2.2.1 rwf, idsSum_append self hwf0]
      rw [runt i hiNotRec]
      rw [rsum]
      rw [idsSum_congr rec.2.2.1 self (by rw [rnum, hnum]) (forestIds cs)
        (fun j hj => runt j (hcsNotRec j hj))]
      exact addCost_shuffle2 (self.table i) (idsSum self (forestIds cs))
        (idsSum self (forestIds ts)) diff

end Data

namespace Data

/-- The builder preserves the self-cost invariants and increases the
self-cost sum over the cursor forest by exactly the row-cost total of the
rows it processes (for monotone inputs: every dropped `diff` is the zero
vector). -/
lemma buildTopDownResult_self_spec (c : Costs) (skip : Bool) (hc : c.WF) :
    ∀ (rows : List BottomUp) (anc : List Symbol) (st : TDState),
      monoRowsB c rows = true →
      TDSelfInv c.numTypes st.forest st.self st.mx →
      TDSelfInv c.numTypes (buildTopDownResult c skip rows anc st).2.forest
          (buildTopDownResult c skip rows anc st).2.self
          (buildTopDownResult c skip rows anc st).2.mx ∧
      idsSum (buildTopDownResult c skip rows anc st).2.self
          (forestIds (buildTopDownResult c skip rows anc st).2.forest) =
        addCost (idsSum st.self (forestIds st.forest)) (sumRowCosts c rows) := by
  intro rows anc st hmono hinv
  induction rows, anc, st using buildTopDownResult.induct c skip with
  | case1 anc st =>
    obtain ⟨h1, h2, h3, h4, h5⟩ := hinv
    simp only [buildTopDownResult]
    refine ⟨⟨h1, h2, h3, h4, h5⟩, ?_⟩
    simp only [sumRowCosts]
    rw [addCost_zero_right _ c.numTypes]
    rw [idsSum_length st.self h4]
    exact h3
  | case2 i sy cs rest anc st rc childCost rowCost diff st2 ih1 ih2 =>
    simp only [monoRowsB, Bool.and_eq_true] at hmono
    obtain ⟨⟨hle, hmcs⟩, hmrest⟩ := hmono
    obtain ⟨inv1, sum1⟩ := ih1 hmcs hinv
    have hchild : (buildTopDownResult c skip cs (sy :: anc) st).1 =
        sumRowCosts c cs := buildTopDownResult_total c skip cs (sy :: anc) st
    have hdiff : diff = subCost (c.itemCost i) (sumRowCosts c cs) := by
      unfold diff rowCost childCost rc
      rw [hchild]
    have hdnn : NonnegCost diff := by
      rw [hdiff]
      exact costLeB_sub_nonneg _ _ hle
    have hdlen2 : diff.length = c.numTypes := by
      rw [hdiff, length_subCost, Costs.itemCost, hc i, sumRowCosts_length c hc]
      simp
    have hrowlen : addCost (subCost (c.itemCost i) (sumRowCosts c cs))
        (sumRowCosts c cs) = c.itemCost i :=
      addCost_sub_cancel (c.itemCost i) (sumRowCosts c cs)
        (by rw [Costs.itemCost, hc i, sumRowCosts_length c hc])
    have inv1' : TDSelfInv c.numTypes rc.2.forest rc.2.self rc.2.mx := inv1
    have sum1' : idsSum rc.2.self (forestIds rc.2.forest) =
        addCost (idsSum st.self (forestIds st.forest)) (sumRowCosts c cs) := sum1
    have hstep : buildTopDownResult c skip (BottomUp.node i sy cs :: rest) anc st =
        (addCost (c.itemCost i) (buildTopDownResult c skip rest anc st2).1,
         (buildTopDownResult c skip rest anc st2).2) := by
      simp only [buildTopDownResult]
      rfl
    rw [hstep]
    by_cases hz : sumCost diff ≠ 0
    · have hwalk := walkChain_self_spec skip diff c.numTypes hdlen2
        (sy :: anc) rc.2.forest rc.2.incl rc.2.self rc.2.mx (by simp) inv1'
      obtain ⟨inv2, _, _, _, _, sum2⟩ := hwalk
      have hst2 : st2 =
          ⟨(walkChain skip diff (sy :: anc) rc.2.forest rc.2.incl rc.2.self rc.2.mx).1,
           (walkChain skip diff (sy :: anc) rc.2.forest rc.2.incl rc.2.self rc.2.mx).2.1,
           (walkChain skip diff (sy :: anc) rc.2.forest rc.2.incl rc.2.self rc.2.mx).2.2.1,
           (walkChain skip diff (sy :: anc) rc.2.forest rc.2.incl rc.2.self rc.2.mx).2.2.2⟩ := by
        unfold st2
        rw [dif_pos hz]
      have inv2' : TDSelfInv c.numTypes st2.forest st2.self st2.mx := by
        rw [hst2]
        exact inv2
      obtain ⟨inv3, sum3⟩ := ih2 hmrest inv2'
      refine ⟨inv3, ?_⟩
      rw [sum3, hst2]
      dsimp only
      rw [sum2, sum1']
      simp only [sumRowCosts, BottomUp.id]
      rw [addCost_assoc (idsSum st.self (forestIds st.forest)) (sumRowCosts c cs) diff]
      rw [addCost_comm (sumRowCosts c cs) diff]
      rw [addCost_assoc (idsSum st.self (forestIds st.forest))
        (addCost diff (sumRowCosts c cs)) (sumRowCosts c rest)]
      rw [hdiff, hrowlen]
    · have hst2 : st2 = rc.2 := by
        unfold st2
        rw [dif_neg hz]
      push_neg at hz
      have hdzero : diff = zeroCost c.numTypes := by
        have h0 := sumCost_nonneg_eq_zero diff hdnn hz
        rw [hdlen2] at h0
        exact h0
      have inv2' : TDSelfInv c.numTypes st2.forest st2.self st2.mx := by
        rw [hst2]
        exact inv1'
      obtain ⟨inv3, sum3⟩ := ih2 hmrest inv2'
      refine ⟨inv3, ?_⟩
      rw [sum3, hst2, sum1']
      simp only [sumRowCosts, BottomUp.id]
      rw [show c.itemCost i = addCost (subCost (c.itemCost i) (sumRowCosts c cs))
        (sumRowCosts c cs) from hrowlen.symm]
      rw [← hdiff, hdzero]
      rw [addCost_zero_left (sumRowCosts c cs) c.numTypes
        (sumRowCosts_length c hc cs)]
      rw [addCost_assoc]

end Data

/-- C1: cost conservation.  For a well-formed bottom-up input (uniform
cost-vector lengths and monotone rows: each row cost dominates the sum of
its children's row costs, so every dropped zero-sum `diff` is the zero
vector), the elementwise sum of self costs over all nodes of the top-down
tree built by `TopDownResults::fromBottomUp` (without `skipFirstLevel`)
equals the sum of all bottom-up leaf contributions `diff`, which in turn
equals the grand total row cost of the input. -/
theorem claim_C1_cost_conservation (bu : Data.BottomUpResults)
    (hwf : bu.costs.WF)
    (hmono : Data.monoRowsB bu.costs bu.root.children = true) :
    Data.idsSum (Data.TopDownResults.fromBottomUp bu false).selfCosts
        (Data.forestIds
          (Data.TopDownResults.fromBottomUp bu false).root.children) =
      Data.leafContribSum bu.costs bu.root.children ∧
    Data.leafContribSum bu.costs bu.root.children =
      Data.sumRowCosts bu.costs bu.root.children := by
  have hlcs := Data.leafContribSum_eq bu.costs hwf bu.root.children
  refine ⟨?_, hlcs⟩
  rw [hlcs]
  have hinv0 : Data.TDSelfInv bu.costs.numTypes []
      (Data.initializeCostsFrom bu.costs) 0 := by
    refine ⟨?_, ?_, rfl, ?_, ?_⟩
    · simp [Data.forestIds]
    · intro j hj
      simp [Data.forestIds] at hj
    · intro i
      simp [Data.initializeCostsFrom, Data.length_zeroCost]
    · intro j _
      rfl
  obtain ⟨_, hsum⟩ := Data.buildTopDownResult_self_spec bu.costs false hwf
    bu.root.children []
    ⟨[], Data.initializeCostsFrom bu.costs,
     Data.initializeCostsFrom bu.costs, 0⟩ hmono hinv0
  show Data.idsSum
      (Data.buildTopDownResult bu.costs false bu.root.children []
        ⟨[], Data.initializeCostsFrom bu.costs,
         Data.initializeCostsFrom bu.costs, 0⟩).2.self
      (Data.forestIds
        (Data.buildTopDownResult bu.costs false bu.root.children []
          ⟨[], Data.initializeCostsFrom bu.costs,
           Data.initializeCostsFrom bu.costs, 0⟩).2.forest) =
    Data.sumRowCosts bu.costs bu.root.children
  rw [hsum]
  dsimp only
  simp only [Data.forestIds, Data.idsSum]
  exact Data.addCost_zero_left _ bu.costs.numTypes
    (Data.sumRowCosts_length bu.costs hwf bu.root.children)

/-- Counterexample to C1 as frozen: with a cost matrix that merely matches
the category count, conservation can fail.  The single row with cost
`[5, -5]` has a leaf contribution whose components cancel to a zero total,
so the builder drops it: every top-down self cost stays zero while the
grand total row cost is `[5, -5]`. -/
theorem claim_C1_counterexample :
    (Data.singletonBU exA [5, -5]).costs.WF ∧
    Data.idsSum
        (Data.TopDownResults.fromBottomUp (Data.singletonBU exA [5, -5])
          false).selfCosts
        (Data.forestIds
          (Data.TopDownResults.fromBottomUp (Data.singletonBU exA [5, -5])
            false).root.children) ≠
      Data.sumRowCosts (Data.singletonBU exA [5, -5]).costs
        (Data.singletonBU exA [5, -5]).root.children := by
  constructor
  · intro i
    dsimp [Data.singletonBU]
    split <;> simp [Data.zeroCost]
  · simp +decide [Data.TopDownResults.fromBottomUp, Data.buildTopDownResult,
      Data.singletonBU, Data.initializeCostsFrom, Data.Costs.itemCost,
      Data.BottomUp.children, Data.BottomUp.id, Data.BottomUp.symbol,
      Data.TopDown.children, Data.forestIds, Data.idsSum, Data.sumRowCosts,
      Data.subCost, Data.addCost, Data.sumCost, Data.zeroCost]

/-- Witness for C1 on a concrete two-level tree: row costs `[3]` and `[1]`
conserve into the top-down self costs. -/
theorem claim_C1_cost_conservation_witness :
    (Data.mkCosts 1 [(0, [3]), (1, [1])]).WF ∧
    Data.monoRowsB (Data.mkCosts 1 [(0, [3]), (1, [1])])
        [.node 0 exA [.node 1 exB []]] = true ∧
    (Data.idsSum
        (Data.TopDownResults.fromBottomUp
          ⟨.node 0 ⟨"", ""⟩ [.node 0 exA [.node 1 exB []]],
           Data.mkCosts 1 [(0, [3]), (1, [1])]⟩ false).selfCosts
        (Data.forestIds
          (Data.TopDownResults.fromBottomUp
            ⟨.node 0 ⟨"", ""⟩ [.node 0 exA [.node 1 exB []]],
             Data.mkCosts 1 [(0, [3]), (1, [1])]⟩ false).root.children) =
      Data.leafContribSum (Data.mkCosts 1 [(0, [3]), (1, [1])])
        [.node 0 exA [.node 1 exB []]] ∧
     Data.leafContribSum (Data.mkCosts 1 [(0, [3]), (1, [1])])
        [.node 0 exA [.node 1 exB []]] =
      Data.sumRowCosts (Data.mkCosts 1 [(0, [3]), (1, [1])])
        [.node 0 exA [.node 1 exB []]]) :=
  ⟨Data.mkCosts_WF 1 [(0, [3]), (1, [1])] (by decide),
   by simp +decide [Data.monoRowsB, Data.costLeB, Data.sumRowCosts,
     Data.Costs.itemCost, Data.mkCosts, Data.lookupCost, Data.zeroCost,
     Data.addCost, Data.BottomUp.id, exA, exB],
   claim_C1_cost_conservation
     ⟨.node 0 ⟨"", ""⟩ [.node 0 exA [.node 1 exB []]],
      Data.mkCosts 1 [(0, [3]), (1, [1])]⟩
     (Data.mkCosts_WF 1 [(0, [3]), (1, [1])] (by decide))
     (by simp +decide [Data.monoRowsB, Data.costLeB, Data.sumRowCosts,
       Data.Costs.itemCost, Data.mkCosts, Data.lookupCost, Data.zeroCost,
       Data.addCost, Data.BottomUp.id, Data.BottomUp.children, exA, exB])⟩

/-! ## C7: inclusive cost dominates self cost -/

namespace Data

lemma le_addCost_both :
    ∀ (a b : ItemCost), List.Forall₂ (· ≤ ·) a b →
      ∀ d : ItemCost,
        List.Forall₂ (· ≤ ·) (addCost a d) (addCost b d) := by
  intro a b hab
  induction hab with
  | nil => intro d; simp [addCost]
  | @cons x y xs ys hxy hrest ih =>
    intro d
    cases d with
    | nil => simp [addCost]
    | cons k ks =>
      simp only [addCost, List.zipWith_cons_cons]
      exact List.Forall₂.cons (by omega) (ih ks)

lemma le_addCost_right :
    ∀ (a b : ItemCost), List.Forall₂ (· ≤ ·) a b →
      ∀ d : ItemCost, NonnegCost d → b.length ≤ d.length →
        List.Forall₂ (· ≤ ·) a (addCost b d) := by
  intro a b hab
  induction hab with
  | nil => intro d _ _; simp [addCost]
  | @cons x y xs ys hxy hrest ih =>
    intro d hd hlen
    cases d with
    | nil => simp at hlen
    | cons k ks =>
      simp only [addCost, List.zipWith_cons_cons]
      refine List.Forall₂.cons ?_
        (ih ks (fun z hz => hd z (List.mem_cons_of_mem _ hz))
          (by simpa using hlen))
      have hk := hd k (List.mem_cons_self _ _)
      omega

lemma nonneg_addCost :
    ∀ (a d : ItemCost), NonnegCost a → NonnegCost d →
      NonnegCost (addCost a d) := by
  intro a
  induction a with
  | nil => intro d _ _ x hx; simp [addCost] at hx
  | cons y ys ih =>
    intro d ha hd x hx
    cases d with
    | nil => simp [addCost] at hx
    | cons k ks =>
      simp only [addCost, List.zipWith_cons_cons] at hx
      rcases List.mem_cons.mp hx with rfl | hx2
      · have h1 := ha y (List.mem_cons_self _ _)
        have h2 := hd k (List.mem_cons_self _ _)
        omega
      · exact ih ks (fun z hz => ha z (List.mem_cons_of_mem _ hz))
          (fun z hz => hd z (List.mem_cons_of_mem _ hz)) x hx2

/-- The inclusive/self comparison invariant threaded through the top-down
builder: both matrices keep the category count and stay well-formed, the
inclusive rows are componentwise nonnegative, and every self row is
dominated componentwise by the matching inclusive row. -/
structure TDLE (n : Nat) (incl self : Costs) : Prop where
  inclNum : incl.numTypes = n
  selfNum : self.numTypes = n
  inclWF : incl.WF
  selfWF : self.WF
  inclNonneg : ∀ j, NonnegCost (incl.table j)
  le : ∀ j, List.Forall₂ (· ≤ ·) (self.table j) (incl.table j)

/-- One parent-chain walk preserves the domination invariant: inclusive
rows get `diff` at every visited node, self rows only together with an
inclusive credit at the last node. -/
lemma walkChain_le_spec (skip : Bool) (diff : ItemCost) (n : Nat)
    (hdlen : diff.length = n) (hdnn : NonnegCost diff) :
    ∀ (chain : List Symbol) (f : List TopDown) (incl self : Costs) (mx : Nat),
      TDLE n incl self →
      TDLE n (walkChain skip diff chain f incl self mx).2.1
        (walkChain skip diff chain f incl self mx).2.2.1 := by
  intro chain f incl self mx hle
  induction chain, f, incl, self, mx using walkChain.induct skip diff with
  | case1 f incl self mx =>
    simp only [walkChain]
    exact hle
  | case2 s rest incl self mx hlast =>
    obtain ⟨hin, hsn, hiw, hsw, hinn, hles⟩ := hle
    simp only [walkChain, hlast, if_true]
    refine ⟨by rw [Costs.numTypes_add]; exact hin,
      by rw [Costs.numTypes_add]; exact hsn,
      Costs.WF.add incl hiw mx diff (by rw [hin]; exact hdlen),
      Costs.WF.add self hsw mx diff (by rw [hsn]; exact hdlen), ?_, ?_⟩
    · intro j
      by_cases hj : j = mx
      · subst hj
        rw [Costs.table_add_self]
        exact nonneg_addCost _ _ (hinn j) hdnn
      · rw [Costs.table_add_ne incl mx j diff hj]
        exact hinn j
    · intro j
      by_cases hj : j = mx
      · subst hj
        rw [Costs.table_add_self, Costs.table_add_self]
        exact le_addCost_both _ _ (hles j) diff
      · rw [Costs.table_add_ne incl mx j diff hj,
          Costs.table_add_ne self mx j diff hj]
        exact hles j
  | case3 s rest incl self mx incl2 hlast ih =>
    obtain ⟨hin, hsn, hiw, hsw, hinn, hles⟩ := hle
    simp only [walkChain, hlast, Bool.false_eq_true, not_false_iff, if_false]
    have hle2 : TDLE n (incl.add mx diff) self := by
      refine ⟨by rw [Costs.numTypes_add]; exact hin, hsn,
        Costs.WF.add incl hiw mx diff (by rw [hin]; exact hdlen), hsw, ?_, ?_⟩
      · intro j
        by_cases hj : j = mx
        · subst hj
          rw [Costs.table_add_self]
          exact nonneg_addCost _ _ (hinn j) hdnn
        · rw [Costs.table_add_ne incl mx j diff hj]
          exact hinn j
      · intro j
        by_cases hj : j = mx
        · subst hj
          rw [Costs.table_add_self]
          exact le_addCost_right _ _ (hles j) diff hdnn
            (Nat.le_of_eq (by rw [hiw j, hin, hdlen]))
        · rw [Costs.table_add_ne incl mx j diff hj]
          exact hles j
    exact ih hle2
  | case4 rest i sy cs ts incl self mx hlast =>
    obtain ⟨hin, hsn, hiw, hsw, hinn, hles⟩ := hle
    simp only [walkChain, hlast, if_true, if_pos rfl]
    refine ⟨by rw [Costs.numTypes_add]; exact hin,
      by rw [Costs.numTypes_add]; exact hsn,
      Costs.WF.add incl hiw i diff (by rw [hin]; exact hdlen),
      Costs.WF.add self hsw i diff (by rw [hsn]; exact hdlen), ?_, ?_⟩
    · intro j
      by_cases hj : j = i
      · subst hj
        rw [Costs.table_add_self]
        exact nonneg_addCost _ _ (hinn j) hdnn
      · rw [Costs.table_add_ne incl i j diff hj]
        exact hinn j
    · intro j
      by_cases hj : j = i
      · subst hj
        rw [Costs.table_add_self, Costs.table_add_self]
        exact le_addCost_both _ _ (hles j) diff
      · rw [Costs.table_add_ne incl i j diff hj,
          Costs.table_add_ne self i j diff hj]
        exact hles j
  | case5 rest i sy cs ts incl self mx incl2 hlast ih =>
    obtain ⟨hin, hsn, hiw, hsw, hinn, hles⟩ := hle
    simp only [walkChain, hlast, Bool.false_eq_true, not_false_iff, if_false,
      eq_self_iff_true, if_true]
    have hle2 : TDLE n (incl.add i diff) self := by
      refine ⟨by rw [Costs.numTypes_add]; exact hin, hsn,
        Costs.WF.add incl hiw i diff (by rw [hin]; exact hdlen), hsw, ?_, ?_⟩
      · intro j
        by_cases hj : j = i
        · subst hj
          rw [Costs.table_add_self]
          exact nonneg_addCost _ _ (hinn j) hdnn
        · rw [Costs.table_add_ne incl i j diff hj]
          exact hinn j
      · intro j
        by_cases hj : j = i
        · subst hj
          rw [Costs.table_add_self]
          exact le_addCost_right _ _ (hles j) diff hdnn
            (Nat.le_of_eq (by rw [hiw j, hin, hdlen]))
        · rw [Costs.table_add_ne incl i j diff hj]
          exact hles j
    exact ih hle2
  | case6 s rest i sy cs ts incl self mx hsne ih =>
    simp only [walkChain, hsne, if_false]
    exact ih hle

end Data

namespace Data

/-- The top-down builder preserves the domination invariant for monotone
inputs (every processed `diff` is then nonnegative). -/
lemma buildTopDownResult_le_spec (c : Costs) (skip : Bool) (hc : c.WF) :
    ∀ (rows : List BottomUp) (anc : List Symbol) (st : TDState),
      monoRowsB c rows = true →
      TDLE c.numTypes st.incl st.self →
      TDLE c.numTypes (buildTopDownResult c skip rows anc st).2.incl
        (buildTopDownResult c skip rows anc st).2.self := by
  intro rows anc st hmono hle
  induction rows, anc, st using buildTopDownResult.induct c skip with
  | case1 anc st =>
    simp only [buildTopDownResult]
    exact hle
  | case2 i sy cs rest anc st rc childCost rowCost diff st2 ih1 ih2 =>
    simp only [monoRowsB, Bool.and_eq_true] at hmono
    obtain ⟨⟨hleB, hmcs⟩, hmrest⟩ := hmono
    have hle1 := ih1 hmcs hle
    have hchild : (buildTopDownResult c skip cs (sy :: anc) st).1 =
        sumRowCosts c cs := buildTopDownResult_total c skip cs (sy :: anc) st
    have hdiff : diff = subCost (c.itemCost i) (sumRowCosts c cs) := by
      unfold diff rowCost childCost rc
      rw [hchild]
    have hdnn : NonnegCost diff := by
      rw [hdiff]
      exact costLeB_sub_nonneg _ _ hleB
    have hdlen2 : diff.length = c.numTypes := by
      rw [hdiff, length_subCost, Costs.itemCost, hc i, sumRowCosts_length c hc]
      simp
    have hle1' : TDLE c.numTypes rc.2.incl rc.2.self := hle1
    have hstep : buildTopDownResult c skip (BottomUp.node i sy cs :: rest) anc st =
        (addCost (c.itemCost i) (buildTopDownResult c skip rest anc st2).1,
         (buildTopDownResult c skip rest anc st2).2) := by
      simp only [buildTopDownResult]
      rfl
    rw [hstep]
    by_cases hz : sumCost diff ≠ 0
    · have hwalk := walkChain_le_spec skip diff c.numTypes hdlen2 hdnn
        (sy :: anc) rc.2.forest rc.2.incl rc.2.self rc.2.mx hle1'
      have hst2 : st2 =
          ⟨(walkChain skip diff (sy :: anc) rc.2.forest rc.2.incl rc.2.self rc.2.mx).1,
           (walkChain skip diff (sy :: anc) rc.2.forest rc.2.incl rc.2.self rc.2.mx).2.1,
           (walkChain skip diff (sy :: anc) rc.2.forest rc.2.incl rc.2.self rc.2.mx).2.2.1,
           (walkChain skip diff (sy :: anc) rc.2.forest rc.2.incl rc.2.self rc.2.mx).2.2.2⟩ := by
        unfold st2
        rw [dif_pos hz]
      have hle2 : TDLE c.numTypes st2.incl st2.self := by
        rw [hst2]
        exact hwalk
      exact ih2 hmrest hle2
    · have hst2 : st2 = rc.2 := by
        unfold st2
        rw [dif_neg hz]
      have hle2 : TDLE c.numTypes st2.incl st2.self := by
        rw [hst2]
        exact hle1'
      exact ih2 hmrest hle2

/-- The manual group summation of the `skipFirstLevel` pass only grows
inclusive rows by nonnegative vectors, so it preserves the invariant. -/
lemma foldl_incl_le (n : Nat) (gid : Nat) (self : Costs) :
    ∀ (l : List TopDown) (acc : Costs),
      TDLE n acc self →
      TDLE n
        (l.foldl (fun acc child => acc.add gid (acc.itemCost child.id)) acc)
        self := by
  intro l
  induction l with
  | nil => intro acc h; exact h
  | cons child rest ih =>
    intro acc h
    obtain ⟨hin, hsn, hiw, hsw, hinn, hles⟩ := h
    simp only [List.foldl_cons]
    apply ih
    refine ⟨by rw [Costs.numTypes_add]; exact hin, hsn,
      Costs.WF.add acc hiw gid _ (by rw [Costs.itemCost, hiw child.id]), hsw,
      ?_, ?_⟩
    · intro j
      by_cases hj : j = gid
      · subst hj
        rw [Costs.table_add_self]
        exact nonneg_addCost _ _ (hinn j) (hinn child.id)
      · rw [Costs.table_add_ne acc gid j _ hj]
        exact hinn j
    · intro j
      by_cases hj : j = gid
      · subst hj
        rw [Costs.table_add_self]
        exact le_addCost_right _ _ (hles j) _ (hinn child.id)
          (Nat.le_of_eq (by rw [hiw j, Costs.itemCost, hiw child.id]))
      · rw [Costs.table_add_ne acc gid j _ hj]
        exact hles j

/-- The group pass of `TopDownResults::fromBottomUp` preserves the
domination invariant. -/
lemma buildTopDownGroups_le_spec (c : Costs) (hc : c.WF) :
    ∀ (rows : List BottomUp) (st : TDState),
      monoRowsB c rows = true →
      TDLE c.numTypes st.incl st.self →
      TDLE c.numTypes (buildTopDownGroups c rows st).incl
        (buildTopDownGroups c rows st).self := by
  intro rows
  induction rows with
  | nil =>
    intro st _ hle
    simpa only [buildTopDownGroups] using hle
  | cons row rest ih =>
    intro st hmono hle
    cases row with
    | node i sy cs =>
      simp only [monoRowsB, Bool.and_eq_true] at hmono
      obtain ⟨⟨_, hmcs⟩, hmrest⟩ := hmono
      simp only [buildTopDownGroups]
      have hr := buildTopDownResult_le_spec c true hc cs [sy]
        ⟨(entryForSymbolF st.forest sy st.mx).2.1.children, st.incl, st.self,
         (entryForSymbolF st.forest sy st.mx).2.2⟩ hmcs hle
      have hf := foldl_incl_le c.numTypes
        (entryForSymbolF st.forest sy st.mx).2.1.id
        (buildTopDownResult c true cs [sy]
          ⟨(entryForSymbolF st.forest sy st.mx).2.1.children, st.incl, st.self,
           (entryForSymbolF st.forest sy st.mx).2.2⟩).2.self
        (buildTopDownResult c true cs [sy]
          ⟨(entryForSymbolF st.forest sy st.mx).2.1.children, st.incl, st.self,
           (entryForSymbolF st.forest sy st.mx).2.2⟩).2.forest
        (buildTopDownResult c true cs [sy]
          ⟨(entryForSymbolF st.forest sy st.mx).2.1.children, st.incl, st.self,
           (entryForSymbolF st.forest sy st.mx).2.2⟩).2.incl hr
      exact ih _ hmrest hf

end Data

namespace Data

lemma ccStep_self_empty (diff : ItemCost) (s : Symbol) (rest : List Symbol)
    (last : Option Symbol) (g : List Symbol) (cg : List (Symbol × Symbol))
    (r : CallerCalleeResults) (he : rest.isEmpty = true) :
    (ccStep diff s rest last g cg r).selfCosts =
      r.selfCosts.add (r.entryId s).1 diff := by
  unfold ccStep
  rcases last with _ | l <;>
    cases hsi : symIdx r.syms s <;> by_cases hg : s ∈ g <;>
    simp [CallerCalleeResults.entryId, hsi, hg, he] <;>
    split <;> rfl

lemma ccStep_self_notEmpty (diff : ItemCost) (s : Symbol) (rest : List Symbol)
    (last : Option Symbol) (g : List Symbol) (cg : List (Symbol × Symbol))
    (r : CallerCalleeResults) (he : rest.isEmpty = false) :
    (ccStep diff s rest last g cg r).selfCosts = r.selfCosts := by
  unfold ccStep
  rcases last with _ | l <;>
    cases hsi : symIdx r.syms s <;> by_cases hg : s ∈ g <;>
    simp [CallerCalleeResults.entryId, hsi, hg, he] <;>
    split <;> rfl

/-- The inclusive/self comparison invariant for the caller-callee
builder: both matrices keep the category count, stay well-formed, and
every self row is dominated componentwise by the matching inclusive
row. -/
structure CCLE (n : Nat) (r : CallerCalleeResults) : Prop where
  inclNum : r.inclusiveCosts.numTypes = n
  selfNum : r.selfCosts.numTypes = n
  inclWF : r.inclusiveCosts.WF
  selfWF : r.selfCosts.WF
  le : ∀ j, List.Forall₂ (· ≤ ·) (r.selfCosts.table j)
    (r.inclusiveCosts.table j)

/-- Mid-walk: every symbol already credited this walk (`recursionGuard`)
has an entry whose inclusive row dominates its self row with one more
`diff` of room — the self credit the chain end may still consume. -/
def CCRoom (diff : ItemCost) (g : List Symbol) (r : CallerCalleeResults) :
    Prop :=
  ∀ s ∈ g, ∃ i, symIdx r.syms s = some i ∧
    List.Forall₂ (· ≤ ·) (addCost (r.selfCosts.table i) diff)
      (r.inclusiveCosts.table i)

/-- One loop iteration of the caller-callee walk preserves the
domination invariant. -/
lemma ccStep_le (diff : ItemCost) (n : Nat) (hdlen : diff.length = n)
    (hdnn : NonnegCost diff) (s : Symbol) (rest : List Symbol)
    (last : Option Symbol) (g : List Symbol) (cg : List (Symbol × Symbol))
    (r : CallerCalleeResults) (hb : CCLE n r) (hroom : CCRoom diff g r) :
    CCLE n (ccStep diff s rest last g cg r) := by
  obtain ⟨hin, hsn, hiw, hsw, hles⟩ := hb
  cases he : rest.isEmpty with
  | false =>
    have hself := ccStep_self_notEmpty diff s rest last g cg r he
    by_cases hg : s ∈ g
    · have hincl := ccStep_incl_guarded diff s rest last g cg r hg
      exact ⟨by rw [hincl]; exact hin, by rw [hself]; exact hsn,
        by rw [hincl]; exact hiw, by rw [hself]; exact hsw,
        fun j => by rw [hincl, hself]; exact hles j⟩
    · have hincl := ccStep_incl_unguarded diff s rest last g cg r hg
      have hiwa : (r.inclusiveCosts.add (r.entryId s).1 diff).WF :=
        Costs.WF.add _ hiw _ diff (by rw [hin]; exact hdlen)
      refine ⟨by rw [hincl, Costs.numTypes_add]; exact hin,
        by rw [hself]; exact hsn,
        by rw [hincl]; exact hiwa,
        by rw [hself]; exact hsw, ?_⟩
      intro j
      rw [hincl, hself]
      by_cases hj : j = (r.entryId s).1
      · subst hj
        rw [Costs.table_add_self]
        exact le_addCost_right _ _ (hles ((r.entryId s).1)) diff hdnn
          (Nat.le_of_eq (by rw [hiw ((r.entryId s).1), hin, hdlen]))
      · rw [Costs.table_add_ne _ _ _ _ hj]
        exact hles j
  | true =>
    have hself := ccStep_self_empty diff s rest last g cg r he
    have hswa : (r.selfCosts.add (r.entryId s).1 diff).WF :=
      Costs.WF.add _ hsw _ diff (by rw [hsn]; exact hdlen)
    by_cases hg : s ∈ g
    · have hincl := ccStep_incl_guarded diff s rest last g cg r hg
      obtain ⟨i0, hsi0, hrm⟩ := hroom s hg
      have hid : (r.entryId s).1 = i0 := by
        rw [entryId_of_some r s i0 hsi0]
      refine ⟨by rw [hincl]; exact hin,
        by rw [hself, Costs.numTypes_add]; exact hsn,
        by rw [hincl]; exact hiw,
        by rw [hself]; exact hswa, ?_⟩
      intro j
      rw [hincl, hself, hid]
      by_cases hj : j = i0
      · subst hj
        rw [Costs.table_add_self]
        exact hrm
      · rw [Costs.table_add_ne _ _ _ _ hj]
        exact hles j
    · have hincl := ccStep_incl_unguarded diff s rest last g cg r hg
      have hiwa : (r.inclusiveCosts.add (r.entryId s).1 diff).WF :=
        Costs.WF.add _ hiw _ diff (by rw [hin]; exact hdlen)
      refine ⟨by rw [hincl, Costs.numTypes_add]; exact hin,
        by rw [hself, Costs.numTypes_add]; exact hsn,
        by rw [hincl]; exact hiwa,
        by rw [hself]; exact hswa, ?_⟩
      intro j
      rw [hincl, hself]
      by_cases hj : j = (r.entryId s).1
      · subst hj
        rw [Costs.table_add_self, Costs.table_add_self]
        exact le_addCost_both _ _ (hles ((r.entryId s).1)) diff
      · rw [Costs.table_add_ne _ _ _ _ hj, Costs.table_add_ne _ _ _ _ hj]
        exact hles j

end Data

namespace Data

/-- Away from the chain end, one loop iteration also maintains the room
invariant for the updated recursion guard. -/
lemma ccStep_room (diff : ItemCost) (n : Nat) (s : Symbol)
    (rest : List Symbol) (last : Option Symbol) (g : List Symbol)
    (cg : List (Symbol × Symbol)) (r : CallerCalleeResults)
    (hb : CCLE n r) (hroom : CCRoom diff g r) (he : rest.isEmpty = false) :
    CCRoom diff (ccStepG s g) (ccStep diff s rest last g cg r) := by
  obtain ⟨hin, hsn, hiw, hsw, hles⟩ := hb
  have hself := ccStep_self_notEmpty diff s rest last g cg r he
  have hsyms := ccStep_syms diff s rest last g cg r
  by_cases hg : s ∈ g
  · have hincl := ccStep_incl_guarded diff s rest last g cg r hg
    obtain ⟨i0, hsi0, _⟩ := hroom s hg
    have hsy : (ccStep diff s rest last g cg r).syms = r.syms := by
      rw [hsyms, entryId_syms_of_some r s i0 hsi0]
    intro t ht
    have ht2 : t ∈ g := by
      simpa only [ccStepG, if_pos hg] using ht
    obtain ⟨it, hsit, hrmt⟩ := hroom t ht2
    exact ⟨it, by rw [hsy]; exact hsit, by rw [hself, hincl]; exact hrmt⟩
  · have hincl := ccStep_incl_unguarded diff s rest last g cg r hg
    intro t ht
    have ht2 : t = s ∨ t ∈ g := by
      have ht3 : t ∈ s :: g := by
        simpa only [ccStepG, if_neg hg] using ht
      exact List.mem_cons.mp ht3
    rcases ht2 with rfl | htg
    · cases hsi : symIdx r.syms t with
      | some i =>
        have hid : (r.entryId t).1 = i := by
          rw [entryId_of_some r t i hsi]
        refine ⟨i, ?_, ?_⟩
        · rw [hsyms, entryId_syms_of_some r t i hsi]
          exact hsi
        · rw [hself, hincl, hid, Costs.table_add_self]
          exact le_addCost_both _ _ (hles i) diff
      | none =>
        have hid : (r.entryId t).1 = r.syms.length := by
          rw [entryId_of_none r t hsi]
        refine ⟨r.syms.length, ?_, ?_⟩
        · rw [hsyms, entryId_syms_of_none r t hsi]
          exact symIdx_append_self r.syms t hsi
        · rw [hself, hincl, hid, Costs.table_add_self]
          exact le_addCost_both _ _ (hles r.syms.length) diff
    · obtain ⟨it, hsit, hrmt⟩ := hroom t htg
      have htne : t ≠ s := fun hh => hg (hh ▸ htg)
      refine ⟨it, ?_, ?_⟩
      · rw [hsyms]
        cases hsi : symIdx r.syms s with
        | some i =>
          rw [entryId_syms_of_some r s i hsi]
          exact hsit
        | none =>
          rw [entryId_syms_of_none r s hsi]
          exact symIdx_append_some r.syms t s it hsit
      · have hitne : it ≠ (r.entryId s).1 := by
          cases hsi : symIdx r.syms s with
          | some i =>
            have hid : (r.entryId s).1 = i := by
              rw [entryId_of_some r s i hsi]
            rw [hid]
            intro hh
            exact htne (symIdx_inj r.syms t s i (hh ▸ hsit) hsi)
          | none =>
            have hid : (r.entryId s).1 = r.syms.length := by
              rw [entryId_of_none r s hsi]
            rw [hid]
            have hlt := symIdx_lt_length r.syms t it hsit
            omega
        rw [hself, hincl, Costs.table_add_ne _ _ _ _ hitne]
        exact hrmt

/-- A full caller-callee walk preserves the domination invariant. -/
lemma ccWalk_le (diff : ItemCost) (n : Nat) (hdlen : diff.length = n)
    (hdnn : NonnegCost diff) :
    ∀ (chain : List Symbol) (last : Option Symbol) (g : List Symbol)
      (cg : List (Symbol × Symbol)) (r : CallerCalleeResults),
      CCLE n r → (CCRoom diff g r ∨ chain = []) →
      CCLE n (ccWalk diff chain last g cg r) := by
  intro chain
  induction chain with
  | nil =>
    intro last g cg r hb _
    simpa only [ccWalk] using hb
  | cons s rest ih =>
    intro last g cg r hb hroom2
    have hroom : CCRoom diff g r := hroom2.resolve_right (by simp)
    rw [ccWalk_cons]
    refine ih (some s) (ccStepG s g) (ccStepCG s last cg) _
      (ccStep_le diff n hdlen hdnn s rest last g cg r hb hroom) ?_
    cases rest with
    | nil => exact Or.inr rfl
    | cons a as =>
      exact Or.inl (ccStep_room diff n s (a :: as) last g cg r
        ⟨hb.1, hb.2, hb.3, hb.4, hb.5⟩ hroom rfl)

end Data

namespace Data

/-- The `totalCost` returned by the caller-callee builder is the row-cost
sum of the rows it visited, independent of the builder state. -/
lemma buildCallerCalleeResult_total (c : Costs) :
    ∀ (rows : List BottomUp) (anc : List Symbol) (r : CallerCalleeResults),
      (buildCallerCalleeResult c rows anc r).1 = sumRowCosts c rows := by
  intro rows anc r
  induction rows, anc, r using buildCallerCalleeResult.induct c with
  | case1 anc r => simp [buildCallerCalleeResult, sumRowCosts]
  | case2 i sy cs rest anc r rc childCost rowCost diff r2 ihcs ihrest =>
    simp only [buildCallerCalleeResult, sumRowCosts, BottomUp.id]
    exact congrArg (fun x => addCost (c.itemCost i) x) ihrest

/-- The caller-callee builder preserves the domination invariant for
monotone inputs. -/
lemma buildCallerCalleeResult_le (c : Costs) (hc : c.WF) :
    ∀ (rows : List BottomUp) (anc : List Symbol) (r : CallerCalleeResults),
      monoRowsB c rows = true → CCLE c.numTypes r →
      CCLE c.numTypes (buildCallerCalleeResult c rows anc r).2 := by
  intro rows anc r hmono hb
  induction rows, anc, r using buildCallerCalleeResult.induct c with
  | case1 anc r =>
    simp only [buildCallerCalleeResult]
    exact hb
  | case2 i sy cs rest anc r rc childCost rowCost diff r2 ihcs ihrest =>
    simp only [monoRowsB, Bool.and_eq_true] at hmono
    obtain ⟨⟨hleB, hmcs⟩, hmrest⟩ := hmono
    have hb1 := ihcs hmcs hb
    have hb1' : CCLE c.numTypes rc.2 := hb1
    have hchild : (buildCallerCalleeResult c cs (sy :: anc) r).1 =
        sumRowCosts c cs := buildCallerCalleeResult_total c cs (sy :: anc) r
    have hdiff : diff = subCost (c.itemCost i) (sumRowCosts c cs) := by
      unfold diff rowCost childCost rc
      rw [hchild]
    have hdnn : NonnegCost diff := by
      rw [hdiff]
      exact costLeB_sub_nonneg _ _ hleB
    have hdlen2 : diff.length = c.numTypes := by
      rw [hdiff, length_subCost, Costs.itemCost, hc i, sumRowCosts_length c hc]
      simp
    have hstep : buildCallerCalleeResult c (BottomUp.node i sy cs :: rest) anc r =
        (addCost (c.itemCost i) (buildCallerCalleeResult c rest anc r2).1,
         (buildCallerCalleeResult c rest anc r2).2) := by
      simp only [buildCallerCalleeResult]
      rfl
    rw [hstep]
    by_cases hz : sumCost diff ≠ 0
    · have hr2 : r2 = ccWalk diff (sy :: anc) none [] [] rc.2 := by
        unfold r2
        rw [dif_pos hz]
      have hb2 : CCLE c.numTypes r2 := by
        rw [hr2]
        exact ccWalk_le diff c.numTypes hdlen2 hdnn (sy :: anc) none [] [] rc.2
          hb1' (Or.inl (fun t ht => absurd ht (List.not_mem_nil t)))
      exact ihrest hmrest hb2
    · have hr2 : r2 = rc.2 := by
        unfold r2
        rw [dif_neg hz]
      have hb2 : CCLE c.numTypes r2 := by
        rw [hr2]
        exact hb1'
      exact ihrest hmrest hb2

end Data

/-- C7: with monotone rows (each row cost dominates, componentwise, the
sum of its children's row costs, so every processed leaf contribution is
nonnegative), the inclusive cost dominates the self cost componentwise at
every node id, in the top-down results of both `skipFirstLevel` modes and
in the caller-callee results.  Per-library results carry a single
aggregated cost matrix and no inclusive/self pair. -/
theorem claim_C7_inclusive_ge_self (bu : Data.BottomUpResults)
    (hwf : bu.costs.WF)
    (hmono : Data.monoRowsB bu.costs bu.root.children = true)
    (skipFirstLevel : Bool) :
    (∀ j, List.Forall₂ (· ≤ ·)
        ((Data.TopDownResults.fromBottomUp bu skipFirstLevel).selfCosts.table j)
        ((Data.TopDownResults.fromBottomUp bu
          skipFirstLevel).inclusiveCosts.table j)) ∧
    (∀ j, List.Forall₂ (· ≤ ·)
        ((Data.callerCalleesFromBottomUpData bu).selfCosts.table j)
        ((Data.callerCalleesFromBottomUpData bu).inclusiveCosts.table j)) := by
  have hle0 : Data.TDLE bu.costs.numTypes
      (Data.initializeCostsFrom bu.costs)
      (Data.initializeCostsFrom bu.costs) := by
    refine ⟨rfl, rfl, ?_, ?_, ?_, ?_⟩
    · intro j
      exact Data.length_zeroCost _
    · intro j
      exact Data.length_zeroCost _
    · intro j x hx
      have hx2 : x ∈ List.replicate bu.costs.numTypes (0 : Int) := hx
      have hx0 := List.eq_of_mem_replicate hx2
      omega
    · intro j
      exact List.forall₂_same.mpr (fun x _ => le_refl x)
  constructor
  · cases skipFirstLevel with
    | false =>
      have h := Data.buildTopDownResult_le_spec bu.costs false hwf
        bu.root.children []
        ⟨[], Data.initializeCostsFrom bu.costs,
         Data.initializeCostsFrom bu.costs, 0⟩ hmono hle0
      obtain ⟨_, _, _, _, _, hle⟩ := h
      intro j
      exact hle j
    | true =>
      have h := Data.buildTopDownGroups_le_spec bu.costs hwf
        bu.root.children
        ⟨[], Data.initializeCostsFrom bu.costs,
         Data.initializeCostsFrom bu.costs, 0⟩ hmono hle0
      obtain ⟨_, _, _, _, _, hle⟩ := h
      intro j
      exact hle j
  · have hcc0 : Data.CCLE bu.costs.numTypes
        (Data.emptyCC bu.costs.numTypes) := by
      refine ⟨rfl, rfl, ?_, ?_, ?_⟩
      · intro j
        exact Data.length_zeroCost _
      · intro j
        exact Data.length_zeroCost _
      · intro j
        exact List.forall₂_same.mpr (fun x _ => le_refl x)
    have h := Data.buildCallerCalleeResult_le bu.costs hwf
      bu.root.children [] (Data.emptyCC bu.costs.numTypes) hmono hcc0
    obtain ⟨_, _, _, _, hle⟩ := h
    intro j
    exact hle j

/-- Counterexample to C7 as frozen: with a cost matrix that merely matches
the category count, a leaf contribution with a negative component makes an
inclusive entry drop below the self entry.  Both rows cost `[-1, 2]`: the
leaf's walk credits `[-1, 2]` to the top node's inclusive row while its
self row stays `[0, 0]`. -/
theorem claim_C7_counterexample :
    (Data.mkCosts 2 [(0, [-1, 2]), (1, [-1, 2])]).WF ∧
    ¬ List.Forall₂ (· ≤ ·)
        ((Data.TopDownResults.fromBottomUp
          ⟨.node 100 ⟨"", ""⟩ [.node 0 exA [.node 1 exB []]],
           Data.mkCosts 2 [(0, [-1, 2]), (1, [-1, 2])]⟩
          false).selfCosts.table 0)
        ((Data.TopDownResults.fromBottomUp
          ⟨.node 100 ⟨"", ""⟩ [.node 0 exA [.node 1 exB []]],
           Data.mkCosts 2 [(0, [-1, 2]), (1, [-1, 2])]⟩
          false).inclusiveCosts.table 0) := by
  constructor
  · exact Data.mkCosts_WF 2 [(0, [-1, 2]), (1, [-1, 2])] (by decide)
  · simp +decide [Data.TopDownResults.fromBottomUp, Data.buildTopDownResult,
      Data.walkChain, Data.isLastNode, Data.Costs.add, Data.mkCosts,
      Data.lookupCost, Data.initializeCostsFrom, Data.Costs.itemCost,
      Data.BottomUp.children, Data.BottomUp.id, Data.BottomUp.symbol,
      Data.TopDown.children, Data.subCost, Data.addCost, Data.sumCost,
      Data.zeroCost, exA, exB, List.forall₂_cons]

/-- Witness for C7 on a concrete two-level tree with row costs `[3]` and
`[1]`. -/
theorem claim_C7_inclusive_ge_self_witness :
    (Data.mkCosts 1 [(0, [3]), (1, [1])]).WF ∧
    Data.monoRowsB (Data.mkCosts 1 [(0, [3]), (1, [1])])
        [.node 0 exA [.node 1 exB []]] = true ∧
    ((∀ j, List.Forall₂ (· ≤ ·)
        ((Data.TopDownResults.fromBottomUp
          ⟨.node 0 ⟨"", ""⟩ [.node 0 exA [.node 1 exB []]],
           Data.mkCosts 1 [(0, [3]), (1, [1])]⟩ false).selfCosts.table j)
        ((Data.TopDownResults.fromBottomUp
          ⟨.node 0 ⟨"", ""⟩ [.node 0 exA [.node 1 exB []]],
           Data.mkCosts 1 [(0, [3]), (1, [1])]⟩
          false).inclusiveCosts.table j)) ∧
     (∀ j, List.Forall₂ (· ≤ ·)
        ((Data.callerCalleesFromBottomUpData
          ⟨.node 0 ⟨"", ""⟩ [.node 0 exA [.node 1 exB []]],
           Data.mkCosts 1 [(0, [3]), (1, [1])]⟩).selfCosts.table j)
        ((Data.callerCalleesFromBottomUpData
          ⟨.node 0 ⟨"", ""⟩ [.node 0 exA [.node 1 exB []]],
           Data.mkCosts 1 [(0, [3]), (1, [1])]⟩).inclusiveCosts.table j))) :=
  ⟨Data.mkCosts_WF 1 [(0, [3]), (1, [1])] (by decide),
   by simp +decide [Data.monoRowsB, Data.costLeB, Data.sumRowCosts,
     Data.Costs.itemCost, Data.mkCosts, Data.lookupCost, Data.zeroCost,
     Data.addCost, Data.BottomUp.id, exA, exB],
   claim_C7_inclusive_ge_self
     ⟨.node 0 ⟨"", ""⟩ [.node 0 exA [.node 1 exB []]],
      Data.mkCosts 1 [(0, [3]), (1, [1])]⟩
     (Data.mkCosts_WF 1 [(0, [3]), (1, [1])] (by decide))
     (by simp +decide [Data.monoRowsB, Data.costLeB, Data.sumRowCosts,
       Data.Costs.itemCost, Data.mkCosts, Data.lookupCost, Data.zeroCost,
       Data.addCost, Data.BottomUp.id, Data.BottomUp.children, exA, exB])
     false⟩
